import Mathlib

/-!
# ontl `std::set` over the red-black tree engine, function objects, `stack`

A shallow embedding of `ntl/stlx/set.hxx`.  The member functions of `set`
that live in `set.hxx` (`insert`, the hinted `insert`, `count`,
`lower_bound`, `upper_bound`, `equal_range`, `operator=`) are translated
statement by statement.  `set` derives from
`std::ext::tree::rb_tree`, whose header `ext/rbtree.hxx` is not among the
sources; the helpers inherited from it are modelled from the specification
and are marked as such.

Representation.  The nodes reachable from `root_` form a `tree`.  A
`node*` is the chain of child slots that leads from the node up to the
root (innermost slot first), so `p->parent` is the tail of the chain and
`p->child[d]` is `d :: p`; the null pointer is `none`.

From `ntl/stlx/functional.hxx` come the comparison functors, the negators, the
binders and the FNV hash; a function object is the function it applies, and
`hash_t` is a number kept below `2 ^ w`.  From `ntl/stlx/stack.hxx` comes the
`stack` adaptor over its default container, a `vector`, whose header is not
among the sources either.
-/

namespace Ontl

/-! ## Data model -/

/-- The two child slots of a node, `tree_type::left` and `tree_type::right`. -/
inductive direction_type
  | left
  | right
  deriving DecidableEq, Repr

/-- Colour tag of a node. -/
inductive color
  | black
  | red
  deriving DecidableEq, Repr

/-- Modelled from the spec: the node graph of `rb_tree` (section 3, Node): one
element, a colour tag and two child links; `null` is the absent-child marker.
The parent link is the position of the node inside the enclosing tree. -/
inductive tree (α : Type)
  | null : tree α
  | node (c : color) (l : tree α) (elem : α) (r : tree α) : tree α
  deriving DecidableEq, Repr

/-- A `node*`: `none` is the null pointer, `some p` the node reached from the
root by following the slots of `p` from its last entry to its first. -/
abbrev node_ptr := Option (List direction_type)

/-- Modelled from the spec: an iterator is a cursor holding a non-owning node
reference; `end()` is the cursor holding no node (section 9: position variant
`Valid(node_ref) | End`). -/
abbrev iterator := Option (List direction_type)

/-- Modelled from the spec: `rb_tree` state, the root and the size counter. -/
structure set (α : Type) where
  root_ : tree α
  count_ : Nat
  deriving DecidableEq, Repr

namespace direction_type

/-- The other slot. -/
def opposite : direction_type → direction_type
  | left => right
  | right => left

end direction_type

namespace tree

variable {α : Type}

/-- Is the pointer to this subtree non-null (`if (p)`). -/
def is_node : tree α → Bool
  | null => false
  | node _ _ _ _ => true

/-- The link `p->child[d]`. -/
def child : tree α → direction_type → tree α
  | null, _ => null
  | node _ l _ _, .left => l
  | node _ _ _ r, .right => r

/-- Follow child slots downwards, outermost slot first. -/
def descend : tree α → List direction_type → tree α
  | t, [] => t
  | t, d :: ds => descend (t.child d) ds

/-- The subtree rooted at the node a pointer chain denotes. -/
def at_ptr (root : tree α) (p : List direction_type) : tree α :=
  root.descend p.reverse

/-- The element `p->elem`, when `p` denotes a node. -/
def elem_at (root : tree α) : node_ptr → Option α
  | none => none
  | some p =>
    match root.at_ptr p with
    | null => none
    | node _ _ e _ => some e

/-- In-order traversal: left subtree, node, right subtree. -/
def inorder : tree α → List α
  | null => []
  | node _ l e r => inorder l ++ e :: inorder r

/-- Number of nodes. -/
def size : tree α → Nat
  | null => 0
  | node _ l _ r => size l + 1 + size r

/-- Every element of the subtree satisfies `P`. -/
def all (P : α → Prop) : tree α → Prop
  | null => True
  | node _ l e r => all P l ∧ P e ∧ all P r

/-- Binary-search-tree property (section 3): every left-subtree element compares
less than its parent, every right-subtree element compares greater. -/
def bst (lt : α → α → Bool) : tree α → Prop
  | null => True
  | node _ l e r =>
    all (fun y => lt y e = true) l ∧ all (fun y => lt e y = true) r ∧ bst lt l ∧ bst lt r

end tree

/-- Comparator contract (section 4.1, glossary): a strict weak ordering is
irreflexive, transitive, and mutual non-less-than is transitive. -/
structure strict_weak_order {α : Type} (lt : α → α → Bool) : Prop where
  irrefl : ∀ a, lt a a = false
  trans : ∀ a b c, lt a b = true → lt b c = true → lt a c = true
  incomp_trans : ∀ a b c, lt a b = false → lt b a = false → lt b c = false → lt c b = false →
    lt a c = false ∧ lt c a = false

/-- Two keys are equivalent when neither compares less than the other. -/
def equiv {α : Type} (lt : α → α → Bool) (a b : α) : Prop :=
  lt a b = false ∧ lt b a = false

section engine

variable {α : Type} (lt : α → α → Bool)

/-- Modelled from the spec: `rb_tree::elem_less(a, b)` applies the comparator. -/
def elem_less (a b : α) : Bool := lt a b

/-- Modelled from the spec: `rb_tree::elem_greater(a, b)` is the comparator with
its arguments exchanged. -/
def elem_greater (a b : α) : Bool := lt b a

/-- Modelled from the spec: `rb_tree::make_iterator(p)` wraps the node pointer;
wrapping the null pointer gives `end()`. -/
def make_iterator (p : node_ptr) : iterator := p

/-- Modelled from the spec: `rb_tree::end()`, the cursor past the maximum. -/
def end_ : iterator := none

/-- Walk from a node along slot `d` as far as there are children. -/
def extreme (d : direction_type) : tree α → List direction_type → List direction_type
  | .null, p => p
  | .node _ l _ r, p =>
    match d with
    | .left => if l.is_node then extreme .left l (.left :: p) else p
    | .right => if r.is_node then extreme .right r (.right :: p) else p

/-- Walk up while the current node is the `d` child of its parent; the result is
the first ancestor entered from the other side, null when there is none. -/
def climb (d : direction_type) : List direction_type → node_ptr
  | [] => none
  | e :: p => if e = d then climb d p else some p

/-- Modelled from the spec: `rb_tree::next(from, direction)` (section 4.1,
Iteration): the successor in direction `d` is the extreme node of the `d`
subtree on the opposite side if that subtree exists, else the nearest ancestor
for which the current node lies in its opposite subtree. -/
def next (root : tree α) (from_ : node_ptr) (d : direction_type) : node_ptr :=
  match from_ with
  | none => none
  | some p =>
    match root.at_ptr p with
    | .null => none
    | .node c l e r =>
      if ((tree.node c l e r).child d).is_node then
        some (extreme d.opposite ((tree.node c l e r).child d) (d :: p))
      else climb d p

/-- Modelled from the spec: `rb_tree::begin()`, the leftmost node. -/
def begin_ (s : set α) : iterator :=
  if s.root_.is_node then make_iterator (some (extreme .left s.root_ [])) else end_

/-! ## Tree surgery behind `insert` and `erase` -/

/-- One step of the way from a node up to the root: the slot the node occupies
in its parent, the parent's colour and element, and the parent's other child. -/
structure frame (α : Type) where
  dir : direction_type
  c : color
  elem : α
  sibling : tree α
  deriving DecidableEq, Repr

/-- The node with colour `c` and element `e` whose `child[d]` is `a` and whose
other child is `b`. -/
def mk_node (d : direction_type) (c : color) (a : tree α) (e : α) (b : tree α) : tree α :=
  match d with
  | .left => .node c a e b
  | .right => .node c b e a

/-- Put a subtree back below its parent. -/
def frame.plug (f : frame α) (t : tree α) : tree α :=
  mk_node f.dir f.c t f.elem f.sibling

/-- Put a subtree back into the tree, innermost frame first. -/
def fill : List (frame α) → tree α → tree α
  | [], t => t
  | f :: fs, t => fill fs (f.plug t)

/-- Walk down from a node along the slots `ds` (outermost first), recording the
way back up. -/
def zoom_down : tree α → List direction_type → List (frame α) → List (frame α) × tree α
  | t, [], ctx => (ctx, t)
  | .null, _ :: _, ctx => (ctx, .null)
  | .node c l e r, .left :: ds, ctx => zoom_down l ds (frame.mk .left c e r :: ctx)
  | .node c l e r, .right :: ds, ctx => zoom_down r ds (frame.mk .right c e l :: ctx)

/-- The way up from the node a pointer chain denotes, and the node itself. -/
def zoom (root : tree α) (p : List direction_type) : List (frame α) × tree α :=
  zoom_down root p.reverse []

/-- Walk down the left spine of a subtree to its minimum, recording the way
back up (innermost frame first). -/
def zoom_min : tree α → List (frame α) → List (frame α) × tree α
  | .null, ctx => (ctx, .null)
  | .node c l e r, ctx =>
    if l.is_node then zoom_min l (frame.mk .left c e r :: ctx) else (ctx, .node c l e r)

/-- Is the node red; an absent child counts as black. -/
def is_red : tree α → Bool
  | .node .red _ _ _ => true
  | _ => false

/-- Recolour a node black. -/
def blacken : tree α → tree α
  | .null => .null
  | .node _ l e r => .node .black l e r

/-- The slot selected by the `greater` flag: `child[greater]`. -/
def slot (greater : Bool) : direction_type :=
  if greater then .right else .left

/-- Modelled from the spec: `rb_tree::construct_node(x)` allocates a new red
node holding `x`, with no children. -/
def construct_node (x : α) : tree α := .node .red .null x .null

/-- Put the repaired subtree back and report where the tracked node ended up:
`rel` leads from the subtree root down to it. -/
def settle (ctx : List (frame α)) (t : tree α) (rel : List direction_type) :
    tree α × List direction_type :=
  (fill ctx t, rel.reverse ++ ctx.map frame.dir)

/-- Modelled from the spec: the insert-side rebalancing (section 4.1).  The focus
`x` is a red node; `ctx` is its way up (parent first, then grandparent).  If the
parent is black, done.  If the parent is red, look at the uncle: a red uncle
recolours parent and uncle black, grandparent red, and continues from the
grandparent; a black or absent uncle rotates at the parent when `x` is on the
outer side and at `x` itself when on the inner side, then recolours.  `rel`
tracks the new node below the focus (outermost slot first). -/
def insert_fixup : List (frame α) → tree α → List direction_type → tree α × List direction_type
  | [], x, rel => settle [] x rel
  | [p], x, rel => settle [p] x rel
  | p :: g :: rest, x, rel =>
    if p.c = .black then settle (p :: g :: rest) x rel
    else if is_red g.sibling then
      insert_fixup rest
        (mk_node g.dir .red (mk_node p.dir .black x p.elem p.sibling) g.elem (blacken g.sibling))
        (g.dir :: p.dir :: rel)
    else if p.dir = g.dir then
      settle rest
        (mk_node p.dir .black x p.elem (mk_node p.dir .red p.sibling g.elem g.sibling))
        (p.dir :: rel)
    else
      match x with
      | .null => settle (p :: g :: rest) x rel
      | .node xc xl xe xr =>
        settle rest
          (mk_node g.dir .black
            (mk_node p.dir .red ((tree.node xc xl xe xr).child g.dir) p.elem p.sibling) xe
            (mk_node g.dir .red ((tree.node xc xl xe xr).child p.dir) g.elem g.sibling))
          (match rel with
            | [] => []
            | d :: ds => if d = g.dir then g.dir :: p.dir :: ds else p.dir :: g.dir :: ds)

/-- Modelled from the spec: `rb_tree::find_node(x, greater)`, the descent shared
by `find` and `insert`.  The first component is the node whose element compares
neither less nor greater than `x` (null when absent), the second the last node
visited before it; `greater` tells on which side of that node the descent went. -/
def find_node_loop (x : α) :
    tree α → List direction_type → node_ptr → Bool → (node_ptr × node_ptr) × Bool
  | .null, _, q, greater => ((none, q), greater)
  | .node _ l e r, p, q, greater =>
    if elem_less lt x e then find_node_loop x l (.left :: p) (some p) false
    else if elem_greater lt x e then find_node_loop x r (.right :: p) (some p) true
    else ((some p, q), greater)

/-- Modelled from the spec: `rb_tree::find_node(x, greater)`; `greater` is passed
by reference and comes back in the second component. -/
def find_node (s : set α) (x : α) (greater : Bool) : (node_ptr × node_ptr) × Bool :=
  find_node_loop lt x s.root_ [] none greater

/-- Modelled from the spec: `rb_tree::insert_impl(q, np, greater)` links the new
node `np` as `child[greater]` of the last visited node `q` (as the root when
`q` is null), rebalances, recolours the root black and counts the element.  It
returns the position of the new node. -/
def insert_impl (s : set α) (q : node_ptr) (np : tree α) (greater : Bool) : iterator × set α :=
  match q with
  | none => (make_iterator (some []), set.mk (blacken np) (s.count_ + 1))
  | some p =>
    match zoom s.root_ p with
    | (_, .null) => (make_iterator none, s)
    | (ctx, .node c l e r) =>
      let res := insert_fixup
        (frame.mk (slot greater) c e ((tree.node c l e r).child (slot greater).opposite) :: ctx)
        np []
      (make_iterator (some res.2), set.mk (blacken res.1) (s.count_ + 1))

/-- Modelled from the spec: the erase-side rebalancing at one parent (section
4.1).  The `d` child `x` of a node with colour `pc` and element `pe` is one black
short; `w` is its sibling.  A red sibling is rotated over the parent, which turns
red, and the deficit is resolved below it with the new, black sibling.  A black
sibling with two black children is recoloured red and the deficit moves to the
parent (reported by `true`).  A black sibling with a red child absorbs the
deficit by a single rotation when the far child is red, else by a double one.
Where there is no sibling at all the deficit moves to the parent. -/
def erase_fix_node (d : direction_type) (pc : color) (x : tree α) (pe : α) :
    tree α → tree α × Bool
  | .null => (mk_node d pc x pe .null, true)
  | .node .red wl we wr =>
    match d with
    | .left =>
      let res := erase_fix_node .left .red x pe wl
      (.node .black (if res.2 then blacken res.1 else res.1) we wr, false)
    | .right =>
      let res := erase_fix_node .right .red x pe wr
      (.node .black wl we (if res.2 then blacken res.1 else res.1), false)
  | .node .black wl we wr =>
    let near := (tree.node color.black wl we wr).child d
    let far := (tree.node color.black wl we wr).child d.opposite
    if is_red far then
      (mk_node d pc (mk_node d .black x pe near) we (blacken far), false)
    else
      match near with
      | .node .red nl ne nr =>
        (mk_node d pc
          (mk_node d .black x pe ((tree.node color.red nl ne nr).child d)) ne
          (mk_node d .black ((tree.node color.red nl ne nr).child d.opposite) we far), false)
      | _ => (mk_node d pc x pe (.node .red wl we wr), true)

/-- Modelled from the spec: the erase-side walk upwards.  `x` is the subtree
that is one black short.  The walk ends at a red node, which is recoloured
black, or at the root. -/
def erase_fixup : List (frame α) → tree α → tree α
  | [], x => blacken x
  | f :: rest, x =>
    if is_red x then fill (f :: rest) (blacken x)
    else
      match erase_fix_node f.dir f.c x f.elem f.sibling with
      | (sub, true) => erase_fixup rest sub
      | (sub, false) => fill rest sub

/-- Modelled from the spec: the splice of `rb_tree::erase` (section 4.1).  A node
with at most one child is taken out, the child takes its place, and the tree
is rebalanced if the removed node was black. -/
def splice (ctx : List (frame α)) : tree α → tree α
  | .null => fill ctx .null
  | .node c l _ r =>
    let x := if l.is_node then l else r
    if c = .black then erase_fixup ctx x else fill ctx x

/-- Modelled from the spec: `rb_tree::erase(position)` (section 4.1).  A node with
two children exchanges its element with its in-order successor, and the
successor is removed instead; a node with at most one child is spliced out
directly.  The size counter is decremented.  Erasing through an iterator that
denotes no node is a contract violation, rendered as `none`. -/
def set.erase (s : set α) (position : iterator) : Option (set α) :=
  match position with
  | none => none
  | some p =>
    match zoom s.root_ p with
    | (_, .null) => none
    | (ctx, .node c l e r) =>
      if l.is_node && r.is_node then
        match zoom_min r [] with
        | (_, .null) => none
        | (sctx, .node sc sl se sr) =>
          some (set.mk (splice (sctx ++ frame.mk .right c se l :: ctx) (.node sc sl e sr))
            (s.count_ - 1))
      else some (set.mk (splice ctx (.node c l e r)) (s.count_ - 1))

/-! ## `set.hxx` -/

/-- The `while (p)` loop of `set::equal_range`.  The loop variable `p` is
carried as the pointer chain together with the node it denotes. -/
def equal_range_loop (root : tree α) (x : α) : tree α → List direction_type → iterator × iterator
  | .null, _ => (make_iterator none, make_iterator none)
  | .node _ l e r, p =>
    if elem_less lt x e then
      if l.is_node then equal_range_loop root x l (.left :: p)
      else (make_iterator (some p), make_iterator (some p))
    else if elem_greater lt x e then equal_range_loop root x r (.right :: p)
    else (make_iterator (some p), make_iterator (next root (some p) .right))

/-- `set::equal_range(x)` (set.hxx:194). -/
def set.equal_range (s : set α) (x : α) : iterator × iterator :=
  equal_range_loop lt s.root_ x s.root_ []

/-- `set::insert(const value_type& x)` (set.hxx:145).  The local `greater` is
declared without a value; `find_node` assigns it on every visited node, and
`insert_impl` does not look at it when the tree is empty. -/
def set.insert (s : set α) (x : α) : (iterator × Bool) × set α :=
  let greater := false
  let found := find_node lt s x greater
  let place := found.1
  match place.1 with
  | some p => ((make_iterator (some p), false), s)
  | none =>
    let res := insert_impl s place.2 (construct_node x) found.2
    ((res.1, true), res.2)

/-- Modelled from the spec: `rb_tree::construct_node(x)` with its effect on the
store made explicit: the node of `construct_node`, and the number of nodes
constructed so far, increased by one. -/
def construct_node_counted (x : α) (constructed : Nat) : tree α × Nat :=
  (construct_node x, constructed + 1)

/-- `set::insert(const value_type& x)` (set.hxx:145) once more, statement by
statement, now threaded with the number of nodes constructed so far.  The
return at set.hxx:150 comes before the only call of `construct_node`
(set.hxx:151), which is evaluated as an argument of `insert_impl`; `find_node`
only reads the tree and `insert_impl` links the node it is given, so neither
constructs one. -/
def set.insert_counted (s : set α) (x : α) (constructed : Nat) :
    ((iterator × Bool) × set α) × Nat :=
  let greater := false
  let found := find_node lt s x greater
  let place := found.1
  match place.1 with
  | some p => (((make_iterator (some p), false), s), constructed)
  | none =>
    let np := construct_node_counted x constructed
    let res := insert_impl s place.2 np.1 found.2
    (((res.1, true), res.2), np.2)

/-- `set::lower_bound(x)` (set.hxx:189): the `second` of `equal_range(x)`. -/
def set.lower_bound (s : set α) (x : α) : iterator :=
  (s.equal_range lt x).2

/-- `set::upper_bound(x)` (set.hxx:191): the `first` of `equal_range(x)`. -/
def set.upper_bound (s : set α) (x : α) : iterator :=
  (s.equal_range lt x).1

/-- `set::equal_range(x) const` (set.hxx:214).  Its body is the single call
`equal_range(x)`; in a const member function the object is const, so the call
resolves to this same const overload.  Every call spends one unit of `fuel`;
`none` reports that the fuel ran out before the call returned. -/
def set.equal_range_const (s : set α) (x : α) : Nat → Option (iterator × iterator)
  | 0 => none
  | fuel + 1 => set.equal_range_const s x fuel

/-- Modelled from the spec: `rb_tree::find(key)` (section 4.1): a descent comparing
the key against each node; the node whose element compares neither less nor
greater, or `end()` when there is none. -/
def find_loop (x : α) : tree α → List direction_type → iterator
  | .null, _ => end_
  | .node _ l e r, p =>
    if elem_less lt x e then find_loop x l (.left :: p)
    else if elem_greater lt x e then find_loop x r (.right :: p)
    else make_iterator (some p)

/-- Modelled from the spec: `rb_tree::find(key)`. -/
def set.find (s : set α) (x : α) : iterator :=
  find_loop lt x s.root_ []

/-- Modelled from the spec: `rb_tree::size()` reads the size counter. -/
def set.size (s : set α) : Nat := s.count_

/-- `set::set()` (set.hxx:54): the default-constructed, empty set. -/
def set.empty : set α := set.mk .null 0

/-- Insert the keys of a list one by one, first key first. -/
def insert_each (s : set α) : List α → set α
  | [] => s
  | x :: xs => insert_each (set.insert lt s x).2 xs

/-- `set::count(x)` (set.hxx:177): `find(x) != end() ? 1 : 0`. -/
def set.count (s : set α) (x : α) : Nat :=
  if s.find lt x ≠ end_ then 1 else 0

/-- `set::insert(const_iterator position, const value_type& x)` (set.hxx:154):
`return insert(x).first;`, the position is not looked at.  The result is the
returned iterator together with the set after the call. -/
def set.insert_hint (s : set α) (_position : iterator) (x : α) : iterator × set α :=
  ((s.insert lt x).1.1, (s.insert lt x).2)

/-- Modelled from the spec: `rb_tree::clear()` (section 6) visits and releases
every node; the set is empty afterwards. -/
def set.clear (_s : set α) : set α := set.empty

/-- Modelled from the spec: `rb_tree::assign(x)`, of which the specification says
nothing; rendered like the bulk construction from a range (section 6): the
elements of `x` are inserted one by one in the order of its traversal. -/
def set.assign (s x : set α) : set α :=
  insert_each lt s x.root_.inorder

/-- What the reference parameter `x` of `operator=` refers to: the assigned set
itself, or another set. -/
inductive assigned_from (α : Type)
  | self : assigned_from α
  | other (x : set α) : assigned_from α

/-- `set::operator=(const set& x)` (set.hxx:94): `clear(); assign(x); return
*this;`, with `assign_` standing for `rb_tree::assign`.  `x` is a reference:
where it refers to the assigned set itself, it denotes the cleared set once
`clear()` has run. -/
def set.copy_assign_with (assign_ : set α → set α → set α) (s : set α)
    (x : assigned_from α) : set α :=
  let cleared := set.clear s
  match x with
  | .self => assign_ cleared cleared
  | .other y => assign_ cleared y

/-- `set::operator=(const set& x)` (set.hxx:94) over the modelled
`rb_tree::assign`. -/
def set.copy_assign (s : set α) (x : assigned_from α) : set α :=
  set.copy_assign_with (set.assign lt) s x

/-- Modelled from the spec: the loop `for (it = first; it != end(); ++it)`
collecting `*it`, where `++it` is `next(it, right)` (section 3, Iterator).  Every
round spends one unit of `fuel`; `none` reports that the fuel ran out or that a
cursor denoted no node. -/
def traverse_from (root : tree α) : Nat → iterator → Option (List α)
  | 0, _ => none
  | _ + 1, none => some []
  | fuel + 1, some p =>
    match root.elem_at (some p) with
    | none => none
    | some e =>
      match traverse_from root fuel (next root (some p) .right) with
      | none => none
      | some es => some (e :: es)

/-- Iterate from `begin()` to `end()`. -/
def set.traverse (s : set α) (fuel : Nat) : Option (List α) :=
  traverse_from s.root_ fuel (begin_ s)

end engine

/-! ## Specification vocabulary -/

section vocabulary

variable {α : Type}

/-- The pointers of all nodes of the subtree whose root has pointer `p`, in
in-order. -/
def tree.ptrs : tree α → List direction_type → List (List direction_type)
  | .null, _ => []
  | .node _ l _ r, p => tree.ptrs l (.left :: p) ++ p :: tree.ptrs r (.right :: p)

/-- Number of black nodes on the leftmost path down to an absent child. -/
def bheight : tree α → Nat
  | .null => 0
  | .node .black l _ _ => bheight l + 1
  | .node .red l _ _ => bheight l

/-- At every node both subtrees have the same black height. -/
def balanced : tree α → Prop
  | .null => True
  | .node _ l _ r => bheight l = bheight r ∧ balanced l ∧ balanced r

/-- No red node has a red child. -/
def no_red_red : tree α → Prop
  | .null => True
  | .node c l _ r =>
    (c = .red → is_red l = false ∧ is_red r = false) ∧ no_red_red l ∧ no_red_red r

/-- For every path from the root to an absent-child marker, the number of black
nodes it passes through. -/
def black_counts : tree α → List Nat
  | .null => [0]
  | .node c l _ r =>
    (black_counts l ++ black_counts r).map (fun n => if c = .black then n + 1 else n)

/-- The red-black colouring invariants (section 3): the root is black, red nodes
have only black children, and every path from the root to an absent-child
marker passes through the same number of black nodes. -/
def red_black (t : tree α) : Prop :=
  is_red t = false ∧ no_red_red t ∧ ∀ a ∈ black_counts t, ∀ b ∈ black_counts t, a = b

/-- The sets obtained from the empty set by a sequence of `insert` and `erase`
operations. -/
inductive reachable (lt : α → α → Bool) : set α → Prop
  | empty : reachable lt set.empty
  | insert (s : set α) (x : α) : reachable lt s → reachable lt (set.insert lt s x).2
  | erase (s s1 : set α) (position : iterator) :
      reachable lt s → set.erase s position = some s1 → reachable lt s1

/-- The element of the root node of a subtree. -/
def root_elem : tree α → Option α
  | .null => none
  | .node _ _ e _ => some e

/-- The elements that precede the hole of a way up, in in-order. -/
def frames_before : List (frame α) → List α
  | [] => []
  | f :: fs =>
    frames_before fs ++ (match f.dir with
      | .left => []
      | .right => f.sibling.inorder ++ [f.elem])

/-- The elements that follow the hole of a way up, in in-order. -/
def frames_after : List (frame α) → List α
  | [] => []
  | f :: fs =>
    (match f.dir with
      | .left => f.elem :: f.sibling.inorder
      | .right => []) ++ frames_after fs

/-- Every step of a way up agrees with the comparison of `x` against the
element passed: left of the greater elements, right of the smaller ones. -/
def path_ok (lt : α → α → Bool) (x : α) : List (frame α) → Prop
  | [] => True
  | f :: fs =>
    (match f.dir with
      | .left => lt x f.elem = true
      | .right => lt f.elem x = true) ∧ path_ok lt x fs

/-- The pointer to the parent of the hole of a way up. -/
def parent_ptr : List (frame α) → node_ptr
  | [] => none
  | _ :: fs => some (fs.map frame.dir)

/-- The colouring invariants of the surroundings of a hole that has to be filled
with a subtree of black height `h`: every sibling is well coloured and has the
black height of the subtree it faces, a red parent has a black sibling child
and a black parent of its own, and the root is black. -/
def ctx_inv : List (frame α) → Nat → Prop
  | [], _ => True
  | f :: fs, h =>
    balanced f.sibling ∧ no_red_red f.sibling ∧ bheight f.sibling = h ∧
    (match f.c with
      | .black => ctx_inv fs (h + 1)
      | .red =>
        is_red f.sibling = false ∧ (∃ g gs, fs = g :: gs ∧ g.c = .black) ∧ ctx_inv fs h)

/-- The colour of the parent of the hole is red. -/
def parent_red : List (frame α) → Bool
  | [] => false
  | f :: _ => f.c == .red

/-- What the colouring invariants see of a frame: everything but the element. -/
def frame.shape (f : frame α) : direction_type × color × tree α :=
  (f.dir, f.c, f.sibling)

/-- A list is strictly increasing in comparator order. -/
def sorted (lt : α → α → Bool) (xs : List α) : Prop :=
  xs.Pairwise (fun a b => lt a b = true)

/-- `less<T>::operator()` (functional.hxx:443). -/
def less {T : Type} [LT T] [DecidableRel (fun (a b : T) => a < b)] (x y : T) : Bool :=
  decide (x < y)

/-- The set of the scenarios of section 8: 1, 3, 5, 7 inserted in this order. -/
def sample_1357 : set Nat := insert_each less set.empty [1, 3, 5, 7]

/-- The set obtained by inserting 3 and then 1. -/
def sample_31 : set Nat := insert_each less set.empty [3, 1]

/-- The set of the erase scenario of section 8: 10, 20, 30 inserted in this
order. -/
def sample_102030 : set Nat := insert_each less set.empty [10, 20, 30]

instance tree.all_decidable (P : α → Prop) [DecidablePred P] :
    (t : tree α) → Decidable (t.all P)
  | .null => isTrue trivial
  | .node _ l _ r =>
    @instDecidableAnd _ _ (tree.all_decidable P l)
      (@instDecidableAnd _ _ inferInstance (tree.all_decidable P r))

instance tree.bst_decidable (lt : α → α → Bool) : (t : tree α) → Decidable (t.bst lt)
  | .null => isTrue trivial
  | .node _ l _ r =>
    @instDecidableAnd _ _ inferInstance
      (@instDecidableAnd _ _ inferInstance
        (@instDecidableAnd _ _ (tree.bst_decidable lt l) (tree.bst_decidable lt r)))

instance equiv_decidable (lt : α → α → Bool) (a b : α) : Decidable (equiv lt a b) :=
  inferInstanceAs (Decidable (lt a b = false ∧ lt b a = false))

end vocabulary

/-! ## `functional.hxx` -/

section functional

variable {T A B R : Type}

/-- `equal_to<T>::operator()` (functional.hxx:425). -/
def equal_to [BEq T] (x y : T) : Bool := x == y

/-- `not_equal_to<T>::operator()` (functional.hxx:431). -/
def not_equal_to [BEq T] (x y : T) : Bool := x != y

/-- `greater<T>::operator()` (functional.hxx:437). -/
def greater [LT T] [DecidableRel (fun (a b : T) => a < b)] (x y : T) : Bool :=
  decide (x > y)

/-- `greater_equal<T>::operator()` (functional.hxx:449). -/
def greater_equal [LE T] [DecidableRel (fun (a b : T) => a ≤ b)] (x y : T) : Bool :=
  decide (x ≥ y)

/-- `less_equal<T>::operator()` (functional.hxx:455). -/
def less_equal [LE T] [DecidableRel (fun (a b : T) => a ≤ b)] (x y : T) : Bool :=
  decide (x ≤ y)

/-- `unary_negate<Predicate>` (functional.hxx:533): holds the predicate. -/
structure unary_negate (A : Type) where
  pred : A → Bool

/-- `unary_negate::operator()(x)` (functional.hxx:541). -/
def unary_negate.call (n : unary_negate A) (x : A) : Bool :=
  ! n.pred x

/-- `not1(pred)` (functional.hxx:549). -/
def not1 (pred : A → Bool) : unary_negate A :=
  unary_negate.mk pred

/-- `binary_negate<Predicate>` (functional.hxx:555): holds the predicate. -/
structure binary_negate (A B : Type) where
  pred : A → B → Bool

/-- `binary_negate::operator()(x, y)` (functional.hxx:565). -/
def binary_negate.call (n : binary_negate A B) (x : A) (y : B) : Bool :=
  ! n.pred x y

/-- `not2(pred)` (functional.hxx:574). -/
def not2 (pred : A → B → Bool) : binary_negate A B :=
  binary_negate.mk pred

/-- `binder1st<Operation>` (functional.hxx:622): the operation and the bound
first argument. -/
structure binder1st (A B R : Type) where
  op : A → B → R
  value : A

/-- `binder1st::operator()(x)` (functional.hxx:637). -/
def binder1st.call (b : binder1st A B R) (x : B) : R :=
  b.op b.value x

/-- `bind1st(op, x)` (functional.hxx:647): `x` of type `T` is converted to the
first argument type of the operation by `convert`, the functional cast
`Operation::first_argument_type(x)`, and bound. -/
def bind1st (op : A → B → R) (convert : T → A) (x : T) : binder1st A B R :=
  binder1st.mk op (convert x)

/-- `binder2nd<Operation>` (functional.hxx:654): the operation and the bound
second argument. -/
structure binder2nd (A B R : Type) where
  op : A → B → R
  value : B

/-- `binder2nd::operator()(const first_argument_type& x)` (functional.hxx:668). -/
def binder2nd.call (b : binder2nd A B R) (x : A) : R :=
  b.op x b.value

/-- `binder2nd::operator()(first_argument_type& x)` (functional.hxx:675), the
overload for a non-const reference. -/
def binder2nd.call_ref (b : binder2nd A B R) (x : A) : R :=
  b.op x b.value

/-- `bind2nd(op, x)` (functional.hxx:685): `x` is converted to the second
argument type of the operation by `convert` and bound. -/
def bind2nd (op : A → B → R) (convert : T → B) (x : T) : binder2nd A B R :=
  binder2nd.mk op (convert x)

/-- An octet of the hashed data, `uint8_t`. -/
abbrev octet := Fin 256

/-- A number brought into the range of `hash_t`, an unsigned integer of `w`
bits. -/
def wrap (w n : Nat) : Nat := n % 2 ^ w

/-- The loop body `hash = hash * prime ^ *p` of `FNVHashT` (functional.hxx:1023):
the product is taken in `hash_t`, then combined by exclusive or with the octet
converted to `hash_t`. -/
def fnv_round (w prime hash : Nat) (p : octet) : Nat :=
  wrap w (hash * prime) ^^^ wrap w p.val

/-- The loop `for (p = data; size--; p++)` of `FNVHashT::operator()` over the
buffer `data`; `none` reports a read past the end of the buffer. -/
def fnv_buffer_loop (w prime : Nat) : List octet → Nat → Nat → Option Nat
  | _, 0, hash => some hash
  | [], _ + 1, _ => none
  | p :: rest, size + 1, hash => fnv_buffer_loop w prime rest size (fnv_round w prime hash p)

/-- `FNVHashT<hash_t, prime, seed>::operator()(const void* data, size_t size)`
(functional.hxx:1019), for `hash_t` an unsigned integer of `w` bits and `prime`,
`seed` values of `hash_t`. -/
def FNVHashT.call (w prime seed : Nat) (data : List octet) (size : Nat) : Option Nat :=
  fnv_buffer_loop w prime data size seed

/-- `FNVHash` for 32-bit code (functional.hxx:1042):
`FNVHashT<size_t, 0x01000193, 2166136261UL>`. -/
def FNVHash.call (data : List octet) (size : Nat) : Option Nat :=
  FNVHashT.call 32 0x01000193 2166136261 data size

/-- `FNVHashT::hash_op(data, size, hash)` (functional.hxx:1027); the default of
`hash` is the seed. -/
def FNVHashT.hash_op (w prime : Nat) (data : List octet) (size : Nat) (hash : Nat) :
    Option Nat :=
  fnv_buffer_loop w prime data size hash

/-- The value types an octet iterator may have: the overload for octets is
enabled for every value type of the size of `uint8_t` (functional.hxx:994),
unsigned like `uint8_t`, or signed like `signed char`. -/
inductive octet_type
  | unsigned_char
  | signed_char
  deriving DecidableEq, Repr

/-- The value `*first` of an element whose stored byte is `b`: the byte itself
for an unsigned type, its two's complement reading for a signed one. -/
def octet_value (ty : octet_type) (b : octet) : Int :=
  match ty with
  | .unsigned_char => (b.val : Int)
  | .signed_char => if b.val < 128 then (b.val : Int) else (b.val : Int) - 256

/-- The conversion `static_cast<hash_t>(v)` of an integer value to the unsigned
`hash_t` of `w` bits: the value modulo `2 ^ w`. -/
def static_cast_hash (w : Nat) (v : Int) : Nat :=
  (v % (2 : Int) ^ w).toNat

/-- The loop `while (first != last)` of the octet-iterator overload, with the body
`hash = hash * prime ^ static_cast<hash_t>(*first)` (functional.hxx:998), over
the elements between `first` and `last`. -/
def fnv_range_loop (w prime : Nat) (ty : octet_type) : List octet → Nat → Nat
  | [], hash => hash
  | b :: rest, hash =>
    fnv_range_loop w prime ty rest
      (wrap w (hash * prime) ^^^ static_cast_hash w (octet_value ty b))

/-- `FNVHashT::operator()(Iterator first, Iterator last)` for octets
(functional.hxx:994), over a range whose elements are stored as the bytes
`data` and have the value type `ty`. -/
def FNVHashT.call_range (w prime seed : Nat) (ty : octet_type) (data : List octet) : Nat :=
  fnv_range_loop w prime ty data seed

/-- The FNV-1 reference hash: starting from the seed, for each octet in order
the hash becomes `((h * prime) mod 2^w) xor octet`. -/
def fnv1_reference (w prime seed : Nat) (data : List octet) : Nat :=
  data.foldl (fun h b => ((h * prime) % 2 ^ w) ^^^ b.val) seed

end functional

/-! ## `stack.hxx` -/

section stack_adaptor

variable {T : Type}

/-- Modelled from the spec: `vector<T>` of the absent `vector.hxx`, the
underlying sequence container `STLX__STACK_CONTAINER` of `stack`: the elements in
order, the back being the last one. -/
structure vector (T : Type) where
  data : List T
  deriving DecidableEq, Repr

/-- Modelled from the spec: `vector::empty()`. -/
def vector.empty (v : vector T) : Bool := v.data.isEmpty

/-- Modelled from the spec: `vector::size()`. -/
def vector.size (v : vector T) : Nat := v.data.length

/-- Modelled from the spec: `vector::back()`, the last element; `none` on an empty
vector, where the call has no defined result. -/
def vector.back (v : vector T) : Option T := v.data.getLast?

/-- Modelled from the spec: `vector::push_back(x)` appends `x`. -/
def vector.push_back (v : vector T) (x : T) : vector T := vector.mk (v.data ++ [x])

/-- Modelled from the spec: `vector::pop_back()` removes the last element; `none`
on an empty vector, where the call has no defined result. -/
def vector.pop_back (v : vector T) : Option (vector T) :=
  match v.data with
  | [] => none
  | a :: as => some (vector.mk (a :: as).dropLast)

/-- Element-wise comparison of two sequences with the `==` of `T`. -/
def equal_elements [BEq T] : List T → List T → Bool
  | [], [] => true
  | a :: as, b :: bs => a == b && equal_elements as bs
  | _, _ => false

/-- Modelled from the spec: `operator==` of `vector`: the same size and equal
elements at every index. -/
def vector.equal [BEq T] (x y : vector T) : Bool :=
  x.size == y.size && equal_elements x.data y.data

/-- An element type whose `==` does not hold between every value and itself, as
`double` with its NaN: the values are NaN and the whole numbers. -/
inductive double where
  | nan
  | finite (n : Int)
  deriving Repr

/-- The `==` of `double`: false whenever an operand is NaN, otherwise the
comparison of the values. -/
def double.eq : double → double → Bool
  | .finite a, .finite b => decide (a = b)
  | _, _ => false

instance double.instBEq : BEq double := ⟨double.eq⟩

/-- `stack<T, Container>` (stack.hxx:31) over the default container. -/
structure stack (T : Type) where
  c : vector T
  deriving DecidableEq, Repr

/-- `stack::empty()` (stack.hxx:81). -/
def stack.empty (s : stack T) : Bool := s.c.empty

/-- `stack::size()` (stack.hxx:82). -/
def stack.size (s : stack T) : Nat := s.c.size

/-- `stack::top()` (stack.hxx:83). -/
def stack.top (s : stack T) : Option T := s.c.back

/-- `stack::push(x)` (stack.hxx:85). -/
def stack.push (s : stack T) (x : T) : stack T := stack.mk (s.c.push_back x)

/-- `stack::pop()` (stack.hxx:86). -/
def stack.pop (s : stack T) : Option (stack T) :=
  match s.c.pop_back with
  | none => none
  | some c1 => some (stack.mk c1)

/-- `operator==(stack, stack)` (stack.hxx:111). -/
def stack.equal [BEq T] (x y : stack T) : Bool := vector.equal x.c y.c

end stack_adaptor

/-! ## Theorems -/

section theorems

variable {α : Type}

open direction_type

/-! ### Pointers and in-order position -/

theorem descend_append (t : tree α) (a b : List direction_type) :
    t.descend (a ++ b) = (t.descend a).descend b := by
  induction a generalizing t with
  | nil => rfl
  | cons d ds ih => simp [tree.descend, ih]

theorem at_ptr_cons (root : tree α) (d : direction_type) (p : List direction_type) :
    root.at_ptr (d :: p) = (root.at_ptr p).child d := by
  simp [tree.at_ptr, descend_append, tree.descend]

theorem at_ptr_left (root : tree α) (p : List direction_type) (c : color) (l r : tree α) (e : α)
    (h : root.at_ptr p = .node c l e r) : root.at_ptr (left :: p) = l := by
  rw [at_ptr_cons, h]; rfl

theorem at_ptr_right (root : tree α) (p : List direction_type) (c : color) (l r : tree α) (e : α)
    (h : root.at_ptr p = .node c l e r) : root.at_ptr (right :: p) = r := by
  rw [at_ptr_cons, h]; rfl

theorem is_node_node (c : color) (l r : tree α) (e : α) :
    (tree.node c l e r).is_node = true := rfl

theorem ptrs_null_of_not_node (t : tree α) (p : List direction_type) (h : t.is_node = false) :
    t.ptrs p = [] := by
  cases t with
  | null => rfl
  | node c l e r => simp [tree.is_node] at h

/-- The in-order list of pointers is linked by `next`: each pointer is followed
by its successor, the last one is followed by what climbing from the subtree
root gives, and the first one is the leftmost node. -/
theorem ptrs_chain (root : tree α) : ∀ (t : tree α) (p : List direction_type),
    root.at_ptr p = t →
    List.Chain' (fun a b => next root (some a) right = some b) (t.ptrs p) ∧
    (∀ z, (t.ptrs p).getLast? = some z → next root (some z) right = climb right p) ∧
    (t.ptrs p).head? = if t.is_node then some (extreme left t p) else none := by
  intro t
  induction t with
  | null => intro p _; simp [tree.ptrs, tree.is_node]
  | node c l e r ihl ihr =>
    intro p h
    obtain ⟨hl1, hl2, hl3⟩ := ihl (left :: p) (at_ptr_left root p c l r e h)
    obtain ⟨hr1, hr2, hr3⟩ := ihr (right :: p) (at_ptr_right root p c l r e h)
    have hnext : next root (some p) right
        = if r.is_node then some (extreme left r (right :: p)) else climb right p := by
      simp [next, h, tree.child, direction_type.opposite]
    refine ⟨?_, ?_, ?_⟩
    · rw [tree.ptrs, List.chain'_append]
      refine ⟨hl1, ?_, ?_⟩
      · rw [List.chain'_cons']
        refine ⟨?_, hr1⟩
        intro y hy
        rw [hr3] at hy
        cases hrn : r.is_node with
        | false => simp [hrn] at hy
        | true =>
          simp [hrn] at hy
          simp [hnext, hrn, hy]
      · intro z hz y hy
        simp at hy
        subst hy
        rw [hl2 z hz]
        simp [climb]
    · intro z hz
      rw [tree.ptrs, List.getLast?_append] at hz
      cases hrn : r.is_node with
      | false =>
        rw [ptrs_null_of_not_node r _ hrn] at hz
        simp at hz
        subst hz
        simp [hnext, hrn]
      | true =>
        cases hrp : r.ptrs (right :: p) with
        | nil => rw [hrp] at hr3; simp [hrn] at hr3
        | cons a as =>
          rw [hrp] at hz hr2
          have hz2 : (a :: as).getLast? = some z := by
            simpa [List.getLast?_cons_cons, List.getLast?_cons] using hz
          rw [hr2 z hz2]
          simp [climb]
    · rw [tree.ptrs]
      cases hln : l.is_node with
      | false =>
        rw [ptrs_null_of_not_node l _ hln]
        simp [is_node_node, extreme, hln]
      | true =>
        cases hlp : l.ptrs (left :: p) with
        | nil => rw [hlp] at hl3; simp [hln] at hl3
        | cons a as =>
          rw [hlp] at hl3
          simp [hln] at hl3
          simp [is_node_node, extreme, hln, hl3]

theorem elem_at_ptrs (root : tree α) : ∀ (t : tree α) (p : List direction_type),
    root.at_ptr p = t →
    (t.ptrs p).map (fun q => root.elem_at (some q)) = t.inorder.map some := by
  intro t
  induction t with
  | null => intro p _; rfl
  | node c l e r ihl ihr =>
    intro p h
    have he : root.elem_at (some p) = some e := by simp [tree.elem_at, h]
    simp [tree.ptrs, tree.inorder, he, ihl (left :: p) (at_ptr_left root p c l r e h),
      ihr (right :: p) (at_ptr_right root p c l r e h)]

theorem all_iff (P : α → Prop) (t : tree α) : t.all P ↔ ∀ y ∈ t.inorder, P y := by
  induction t with
  | null => simp [tree.all, tree.inorder]
  | node c l e r ihl ihr =>
    simp only [tree.all, tree.inorder, ihl, ihr, List.mem_append, List.mem_cons]
    constructor
    · rintro ⟨h1, h2, h3⟩ y (hy | rfl | hy)
      · exact h1 y hy
      · exact h2
      · exact h3 y hy
    · intro h
      exact ⟨fun y hy => h y (Or.inl hy), h e (Or.inr (Or.inl rfl)),
        fun y hy => h y (Or.inr (Or.inr hy))⟩

theorem inorder_ne_nil_is_node (t : tree α) (y : α) (h : y ∈ t.inorder) : t.is_node = true := by
  cases t with
  | null => simp [tree.inorder] at h
  | node c l e r => rfl

/-- The successor of a pointer in the in-order list of pointers is what `next`
returns, `none` after the last one. -/
theorem next_eq_head_of_split (root : tree α) (pre post : List (List direction_type))
    (q : List direction_type) (h : root.ptrs [] = pre ++ q :: post) :
    next root (some q) right = post.head? := by
  obtain ⟨h1, h2, _⟩ := ptrs_chain root root [] rfl
  rw [h] at h1 h2
  cases post with
  | nil =>
    rw [h2 q (by simp)]
    rfl
  | cons q1 post1 =>
    have h3 := (List.chain'_append.mp h1).2.1
    rw [List.chain'_cons] at h3
    simpa using h3.1

/-- The descent of `equal_range` on a search tree reaches the element
equivalent to the key and returns it together with its `next`. -/
theorem equal_range_loop_present (lt : α → α → Bool) (hswo : strict_weak_order lt)
    (root : tree α) (k : α) : ∀ (t : tree α) (p : List direction_type),
    root.at_ptr p = t → t.bst lt → (∃ e ∈ t.inorder, equiv lt k e) →
    ∃ q e, equal_range_loop lt root k t p = (some q, next root (some q) right) ∧
      root.elem_at (some q) = some e ∧ equiv lt k e ∧ q ∈ t.ptrs p := by
  intro t
  induction t with
  | null => intro p _ _ h; simp [tree.inorder] at h
  | node c l e r ihl ihr =>
    intro p h hb hk
    obtain ⟨y, hy, hyk⟩ := hk
    obtain ⟨hbl, hbr, hl, hr⟩ := hb
    rw [all_iff] at hbl hbr
    simp only [tree.inorder, List.mem_append, List.mem_cons] at hy
    cases h1 : lt k e with
    | true =>
      have hyl : y ∈ l.inorder := by
        rcases hy with hy | rfl | hy
        · exact hy
        · have := hyk.1; simp [h1] at this
        · have h2 := hswo.trans k e y h1 (hbr y hy)
          have := hyk.1; simp [h2] at this
      obtain ⟨q, e1, hq1, hq2, hq3, hq4⟩ :=
        ihl (left :: p) (at_ptr_left root p c l r e h) hl ⟨y, hyl, hyk⟩
      refine ⟨q, e1, ?_, hq2, hq3, ?_⟩
      · simp [equal_range_loop, elem_less, h1, inorder_ne_nil_is_node l y hyl, hq1]
      · simp [tree.ptrs, hq4]
    | false =>
      cases h2 : lt e k with
      | true =>
        have hyr : y ∈ r.inorder := by
          rcases hy with hy | rfl | hy
          · have h3 := hswo.trans y e k (hbl y hy) h2
            have := hyk.2; simp [h3] at this
          · have := hyk.2; simp [h2] at this
          · exact hy
        obtain ⟨q, e1, hq1, hq2, hq3, hq4⟩ :=
          ihr (right :: p) (at_ptr_right root p c l r e h) hr ⟨y, hyr, hyk⟩
        refine ⟨q, e1, ?_, hq2, hq3, ?_⟩
        · simp [equal_range_loop, elem_less, elem_greater, h1, h2, hq1]
        · simp [tree.ptrs, hq4]
      | false =>
        refine ⟨p, e, ?_, ?_, ⟨h1, h2⟩, ?_⟩
        · simp [equal_range_loop, elem_less, elem_greater, h1, h2, make_iterator]
        · simp [tree.elem_at, h]
        · simp [tree.ptrs]

/-- A node reported as found by `find_node` holds an element equivalent to the
key. -/
theorem find_node_loop_found (lt : α → α → Bool) (root : tree α) (x : α) :
    ∀ (t : tree α) (p : List direction_type) (q : node_ptr) (g : Bool)
      (p1 : List direction_type) (q1 : node_ptr) (g1 : Bool),
    root.at_ptr p = t → find_node_loop lt x t p q g = ((some p1, q1), g1) →
    ∃ e, root.elem_at (some p1) = some e ∧ equiv lt x e ∧ e ∈ t.inorder := by
  intro t
  induction t with
  | null => intro p q g p1 q1 g1 _ h; simp [find_node_loop] at h
  | node c l e r ihl ihr =>
    intro p q g p1 q1 g1 h hf
    cases h1 : lt x e with
    | true =>
      simp only [find_node_loop, elem_less, h1, if_true] at hf
      obtain ⟨e1, he1, he2, he3⟩ := ihl _ _ _ _ _ _ (at_ptr_left root p c l r e h) hf
      exact ⟨e1, he1, he2, by simp [tree.inorder, he3]⟩
    | false =>
      cases h2 : lt e x with
      | true =>
        simp [find_node_loop, elem_less, elem_greater, h1, h2] at hf
        obtain ⟨e1, he1, he2, he3⟩ := ihr _ _ _ _ _ _ (at_ptr_right root p c l r e h) hf
        exact ⟨e1, he1, he2, by simp [tree.inorder, he3]⟩
      | false =>
        simp [find_node_loop, elem_less, elem_greater, h1, h2] at hf
        obtain ⟨⟨rfl, rfl⟩, rfl⟩ := hf
        exact ⟨e, by simp [tree.elem_at, h], ⟨h1, h2⟩, by simp [tree.inorder]⟩

/-! ### Ways up and the search of `insert` -/

theorem frame_eta (f : frame α) : frame.mk f.dir f.c f.elem f.sibling = f := by
  cases f; rfl

theorem inorder_mk_node (d : direction_type) (c : color) (a b : tree α) (e : α) :
    (mk_node d c a e b).inorder = match d with
      | .left => a.inorder ++ e :: b.inorder
      | .right => b.inorder ++ e :: a.inorder := by
  cases d <;> rfl

theorem child_mk_node_same (d : direction_type) (c : color) (a b : tree α) (e : α) :
    (mk_node d c a e b).child d = a := by
  cases d <;> rfl

theorem inorder_fill (ctx : List (frame α)) (t : tree α) :
    (fill ctx t).inorder = frames_before ctx ++ t.inorder ++ frames_after ctx := by
  induction ctx generalizing t with
  | nil => simp [fill, frames_before, frames_after]
  | cons f fs ih =>
    rw [fill, ih, frame.plug, inorder_mk_node]
    cases hd : f.dir <;> simp [frames_before, frames_after, hd]

theorem inorder_blacken (t : tree α) : (blacken t).inorder = t.inorder := by
  cases t <;> rfl

theorem descend_fill (ctx : List (frame α)) (t : tree α) (rel : List direction_type) :
    (fill ctx t).descend ((ctx.map frame.dir).reverse ++ rel) = t.descend rel := by
  induction ctx generalizing t rel with
  | nil => simp [fill]
  | cons f fs ih =>
    have := ih (f.plug t) (f.dir :: rel)
    simp only [List.map_cons, List.reverse_cons, List.append_assoc, List.singleton_append, fill]
    rw [this, tree.descend, frame.plug, child_mk_node_same]

theorem at_ptr_settle (ctx : List (frame α)) (t : tree α) (rel : List direction_type) :
    (settle ctx t rel).1.at_ptr (settle ctx t rel).2 = t.descend rel := by
  simp [settle, tree.at_ptr, descend_fill]

theorem zoom_down_fill (ctx acc : List (frame α)) (t : tree α) (ds : List direction_type) :
    zoom_down (fill ctx t) ((ctx.map frame.dir).reverse ++ ds) acc
      = zoom_down t ds (ctx ++ acc) := by
  induction ctx generalizing t ds with
  | nil => simp [fill]
  | cons f fs ih =>
    have := ih (f.plug t) (f.dir :: ds)
    simp only [List.map_cons, List.reverse_cons, List.append_assoc, List.singleton_append, fill]
    rw [this, frame.plug]
    cases hd : f.dir <;> simp [mk_node, zoom_down, ← hd, frame_eta]

theorem zoom_fill (ctx : List (frame α)) (t : tree α) :
    zoom (fill ctx t) (ctx.map frame.dir) = (ctx, t) := by
  have := zoom_down_fill ctx [] t []
  simpa [zoom, zoom_down] using this

/-- A search that finds nothing ends at an absent child: the tree is a way up
around an empty hole, every step of it agrees with the comparisons, and the
reported parent and flag are those of the hole. -/
theorem find_node_loop_absent (lt : α → α → Bool) (x : α) :
    ∀ (t : tree α) (ctx : List (frame α)) (q : node_ptr) (g : Bool) (q1 : node_ptr) (g1 : Bool),
    path_ok lt x ctx → q = parent_ptr ctx → (∀ f, ctx.head? = some f → f.dir = slot g) →
    find_node_loop lt x t (ctx.map frame.dir) q g = ((none, q1), g1) →
    ∃ ctx1, path_ok lt x ctx1 ∧ fill ctx1 .null = fill ctx t ∧ q1 = parent_ptr ctx1 ∧
      (∀ f, ctx1.head? = some f → f.dir = slot g1) := by
  intro t
  induction t with
  | null =>
    intro ctx q g q1 g1 hp hq hg hf
    simp [find_node_loop] at hf
    obtain ⟨rfl, rfl⟩ := hf
    exact ⟨ctx, hp, rfl, hq, hg⟩
  | node c l e r ihl ihr =>
    intro ctx q g q1 g1 hp hq hg hf
    cases h1 : lt x e with
    | true =>
      simp only [find_node_loop, elem_less, h1, if_true] at hf
      obtain ⟨ctx1, ha, hb, hc, hd⟩ := ihl (frame.mk .left c e r :: ctx) _ _ q1 g1
        (by simp [path_ok, h1, hp]) (by simp [parent_ptr]) (by simp [slot]) hf
      exact ⟨ctx1, ha, by simpa [fill, frame.plug, mk_node] using hb, hc, hd⟩
    | false =>
      cases h2 : lt e x with
      | true =>
        simp only [find_node_loop, elem_less, elem_greater, h1, h2, if_true] at hf
        obtain ⟨ctx1, ha, hb, hc, hd⟩ := ihr (frame.mk .right c e l :: ctx) _ _ q1 g1
          (by simp [path_ok, h2, hp]) (by simp [parent_ptr]) (by simp [slot]) hf
        exact ⟨ctx1, ha, by simpa [fill, frame.plug, mk_node] using hb, hc, hd⟩
      | false =>
        simp [find_node_loop, elem_less, elem_greater, h1, h2] at hf

/-- What `insert(x)` does when the search finds nothing: the tree is a way up
around an empty hole, the new red node is put into the hole and the tree is
rebalanced from there. -/
theorem insert_absent (lt : α → α → Bool) (s : set α) (x : α) (q : node_ptr) (g : Bool)
    (hfind : find_node lt s x false = ((none, q), g)) :
    ∃ ctx, path_ok lt x ctx ∧ fill ctx .null = s.root_ ∧
      s.insert lt x =
        ((make_iterator (some (insert_fixup ctx (construct_node x) []).2), true),
          set.mk (blacken (insert_fixup ctx (construct_node x) []).1) (s.count_ + 1)) := by
  obtain ⟨ctx, h1, h2, h3, h4⟩ := find_node_loop_absent lt x s.root_ [] none false q g
    (by simp [path_ok]) (by simp [parent_ptr]) (by simp) hfind
  refine ⟨ctx, h1, by simpa [fill] using h2, ?_⟩
  simp only [fill] at h2
  cases ctx with
  | nil =>
    simp only [parent_ptr] at h3
    subst h3
    simp [set.insert, hfind, insert_impl, insert_fixup, settle, fill, make_iterator]
  | cons f fs =>
    simp only [parent_ptr] at h3
    subst h3
    have hz : zoom s.root_ (fs.map frame.dir) = (fs, f.plug .null) := by
      rw [← h2, fill, zoom_fill]
    have hd := h4 f rfl
    obtain ⟨fd, fc, fe, fsib⟩ := f
    simp only at hd
    subst hd
    simp only [set.insert, hfind, insert_impl, hz, frame.plug]
    cases g <;> simp [slot, mk_node, tree.child, direction_type.opposite]

theorem settle_fst (ctx : List (frame α)) (t : tree α) (rel : List direction_type) :
    (settle ctx t rel).1 = fill ctx t := rfl

theorem inorder_insert_fixup (ctx : List (frame α)) (x : tree α) (rel : List direction_type) :
    (insert_fixup ctx x rel).1.inorder = frames_before ctx ++ x.inorder ++ frames_after ctx := by
  induction ctx, x, rel using insert_fixup.induct with
  | case1 x rel => simp [insert_fixup, settle_fst, inorder_fill]
  | case2 p x rel => simp [insert_fixup, settle_fst, inorder_fill]
  | case3 p g rest x rel h => simp [insert_fixup, h, settle_fst, inorder_fill]
  | case4 p g rest x rel h1 h2 ih =>
    simp only [insert_fixup, h1, h2, if_true, if_false]
    rw [ih]
    cases hp : p.dir <;> cases hg : g.dir <;>
      simp [inorder_mk_node, frames_before, frames_after, inorder_blacken, hp, hg]
  | case5 p g rest x rel h1 h2 h3 =>
    simp only [insert_fixup, h1, h2, h3, if_true, if_false, settle_fst, inorder_fill]
    cases hp : p.dir <;> cases hg : g.dir <;>
      simp_all [inorder_mk_node, frames_before, frames_after, settle_fst, inorder_fill]
  | case6 p g rest rel h1 h2 h3 => simp [insert_fixup, h1, h2, h3, settle_fst, inorder_fill]
  | case7 p g rest rel h1 h2 h3 xc xl xe xr =>
    simp only [insert_fixup, h1, h2, h3, if_true, if_false, settle_fst, inorder_fill]
    cases hp : p.dir <;> cases hg : g.dir <;>
      simp_all [inorder_mk_node, frames_before, frames_after, tree.child, tree.inorder,
        settle_fst, inorder_fill]

theorem elem_at_eq (root : tree α) (p : List direction_type) :
    root.elem_at (some p) = root_elem (root.at_ptr p) := by
  simp only [tree.elem_at]
  cases root.at_ptr p <;> rfl

theorem root_elem_at_ptr_blacken (t : tree α) (p : List direction_type) :
    root_elem ((blacken t).at_ptr p) = root_elem (t.at_ptr p) := by
  simp only [tree.at_ptr]
  cases p.reverse with
  | nil => cases t <;> rfl
  | cons d ds => cases t <;> cases d <;> rfl

/-- The rebalancing keeps track of the new node. -/
theorem at_ptr_insert_fixup (ctx : List (frame α)) (x : tree α) (rel : List direction_type) :
    root_elem ((insert_fixup ctx x rel).1.at_ptr (insert_fixup ctx x rel).2)
      = root_elem (x.descend rel) := by
  induction ctx, x, rel using insert_fixup.induct with
  | case1 x rel => simp [insert_fixup, at_ptr_settle]
  | case2 p x rel => simp [insert_fixup, at_ptr_settle]
  | case3 p g rest x rel h => simp [insert_fixup, h, at_ptr_settle]
  | case4 p g rest x rel h1 h2 ih =>
    simp only [insert_fixup, h1, h2, if_true, if_false]
    rw [ih]
    simp [tree.descend, child_mk_node_same]
  | case5 p g rest x rel h1 h2 h3 =>
    simp only [insert_fixup, h1, h2, h3, if_true, if_false, Bool.false_eq_true, reduceIte]
    rw [at_ptr_settle]
    simp [tree.descend, child_mk_node_same]
  | case6 p g rest rel h1 h2 h3 => simp [insert_fixup, h1, h2, h3, at_ptr_settle]
  | case7 p g rest rel h1 h2 h3 xc xl xe xr =>
    simp only [insert_fixup, h1, h2, h3, if_true, if_false, Bool.false_eq_true, reduceIte]
    rw [at_ptr_settle]
    cases rel with
    | nil => cases hg : g.dir <;> simp [tree.descend, mk_node, root_elem]
    | cons d ds =>
      cases hp : p.dir <;> cases hg : g.dir <;> cases d <;>
        simp_all [tree.descend, mk_node, tree.child]

theorem bheight_blacken_red (t : tree α) (h : is_red t = true) :
    bheight (blacken t) = bheight t + 1 := by
  cases t with
  | null => simp [is_red] at h
  | node c l e r => cases c <;> simp_all [is_red, blacken, bheight]

theorem balanced_blacken (t : tree α) (h : balanced t) : balanced (blacken t) := by
  cases t <;> simp_all [blacken, balanced]

theorem no_red_red_blacken (t : tree α) (h : no_red_red t) : no_red_red (blacken t) := by
  cases t <;> simp_all [blacken, no_red_red]

theorem is_red_blacken (t : tree α) : is_red (blacken t) = false := by
  cases t <;> rfl

/-- Filling a well-coloured hole with a well-coloured subtree of the right black
height gives a well-coloured tree. -/
theorem fill_inv (ctx : List (frame α)) : ∀ (t : tree α),
    ctx_inv ctx (bheight t) → balanced t → no_red_red t →
    (parent_red ctx = true → is_red t = false) →
    no_red_red (fill ctx t) ∧ balanced (fill ctx t) := by
  induction ctx with
  | nil => intro t _ h2 h3 _; exact ⟨h3, h2⟩
  | cons f fs ih =>
    intro t h1 h2 h3 h4
    obtain ⟨fd, fc, fe, fsib⟩ := f
    simp only [ctx_inv] at h1
    obtain ⟨ha, hb, hc, hd⟩ := h1
    rw [fill]
    cases fc with
    | black =>
      simp only at hd
      apply ih
      · cases fd <;> simp_all [frame.plug, mk_node, bheight]
      · cases fd <;> simp_all [frame.plug, mk_node, balanced]
      · cases fd <;> simp_all [frame.plug, mk_node, no_red_red]
      · intro _; cases fd <;> simp [frame.plug, mk_node, is_red]
    | red =>
      simp only at hd
      obtain ⟨hd1, ⟨g, gs, rfl, hg⟩, hd3⟩ := hd
      have ht : is_red t = false := h4 (by simp [parent_red])
      apply ih
      · cases fd <;> simp_all [frame.plug, mk_node, bheight]
      · cases fd <;> simp_all [frame.plug, mk_node, balanced]
      · cases fd <;> simp_all [frame.plug, mk_node, no_red_red]
      · intro h; simp [parent_red, hg] at h

/-- The insert-side rebalancing restores the colouring of the tree around a red
focus whose own subtree is well coloured. -/
theorem insert_fixup_inv (ctx : List (frame α)) (x : tree α) (rel : List direction_type) :
    ctx_inv ctx (bheight x) → is_red x = true → balanced x → no_red_red x →
    no_red_red (insert_fixup ctx x rel).1 ∧ balanced (insert_fixup ctx x rel).1 := by
  induction ctx, x, rel using insert_fixup.induct with
  | case1 x rel => intro _ _ h3 h4; exact ⟨h4, h3⟩
  | case2 p x rel =>
    intro h1 h2 h3 h4
    simp only [insert_fixup, settle_fst]
    apply fill_inv _ _ h1 h3 h4
    obtain ⟨pd, pc, pe, ps⟩ := p
    cases pc <;> simp_all [ctx_inv, parent_red]
  | case3 p g rest x rel h =>
    intro h1 h2 h3 h4
    simp only [insert_fixup, h, if_true, settle_fst]
    apply fill_inv _ _ h1 h3 h4
    simp [parent_red, h]
  | case4 p g rest x rel h1 h2 ih =>
    intro h3 h4 h5 h6
    simp only [insert_fixup, h1, h2, if_true, if_false]
    obtain ⟨pd, pc, pe, ps⟩ := p
    obtain ⟨gd, gc, ge, gs⟩ := g
    have hu := bheight_blacken_red gs h2
    have hu2 := balanced_blacken gs
    have hu3 := no_red_red_blacken gs
    have hu4 := is_red_blacken gs
    cases pc <;> cases gc <;> simp_all [ctx_inv]
    apply ih
    · cases pd <;> cases gd <;> simp_all [mk_node, bheight]
    · cases gd <;> simp [mk_node, is_red]
    · cases pd <;> cases gd <;> simp_all [mk_node, balanced, bheight]
    · cases pd <;> cases gd <;> simp_all [mk_node, no_red_red, is_red]
  | case5 p g rest x rel h1 h2 h3 =>
    intro h4 h5 h6 h7
    simp only [insert_fixup, h1, h2, h3, if_true, if_false, Bool.false_eq_true, reduceIte,
      settle_fst]
    obtain ⟨pd, pc, pe, ps⟩ := p
    obtain ⟨gd, gc, ge, gs⟩ := g
    cases pc <;> cases gc <;> simp_all [ctx_inv]
    apply fill_inv
    · cases gd <;> simp_all [mk_node, bheight]
    · cases gd <;> simp_all [mk_node, balanced, bheight]
    · cases gd <;> simp_all [mk_node, no_red_red, is_red]
    · intro _; cases gd <;> simp [mk_node, is_red]
  | case6 p g rest rel h1 h2 h3 => intro _ h; simp [is_red] at h
  | case7 p g rest rel h1 h2 h3 xc xl xe xr =>
    intro h4 h5 h6 h7
    simp only [insert_fixup, h1, h2, h3, if_true, if_false, Bool.false_eq_true, reduceIte,
      settle_fst]
    obtain ⟨pd, pc, pe, ps⟩ := p
    obtain ⟨gd, gc, ge, gs⟩ := g
    cases pc <;> cases gc <;> cases xc <;> simp_all [ctx_inv, is_red]
    apply fill_inv
    · cases pd <;> cases gd <;> simp_all [mk_node, bheight, tree.child, balanced]
    · cases pd <;> cases gd <;> simp_all [mk_node, bheight, tree.child, balanced]
    · cases pd <;> cases gd <;> simp_all [mk_node, no_red_red, is_red, tree.child]
    · intro _; cases gd <;> simp [mk_node, is_red]

/-- A well-coloured tree around a hole: the surroundings of the hole and the
subtree in it are well coloured. -/
theorem ctx_inv_of_fill (ctx : List (frame α)) : ∀ (t : tree α),
    is_red (fill ctx t) = false → no_red_red (fill ctx t) → balanced (fill ctx t) →
    ctx_inv ctx (bheight t) ∧ balanced t ∧ no_red_red t ∧
      (parent_red ctx = true → is_red t = false) ∧ (ctx = [] → is_red t = false) := by
  induction ctx with
  | nil => intro t h1 h2 h3; simp_all [fill, ctx_inv, parent_red]
  | cons f fs ih =>
    intro t h1 h2 h3
    rw [fill] at h1 h2 h3
    obtain ⟨ha, hb, hc, hd, he⟩ := ih _ h1 h2 h3
    obtain ⟨fd, fc, fe, fsib⟩ := f
    cases fc with
    | black =>
      cases fd <;> simp_all [frame.plug, mk_node, ctx_inv, balanced, no_red_red, bheight,
        parent_red]
    | red =>
      cases fs with
      | nil => cases fd <;> simp_all [frame.plug, mk_node, is_red]
      | cons g gs =>
        obtain ⟨gd, gc, ge, gsib⟩ := g
        cases gc <;> cases fd <;>
          simp_all [frame.plug, mk_node, ctx_inv, balanced, no_red_red, bheight, parent_red,
            is_red]

/-! ### Order -/

theorem bst_iff_sorted (lt : α → α → Bool) (hswo : strict_weak_order lt) (t : tree α) :
    t.bst lt ↔ sorted lt t.inorder := by
  induction t with
  | null => simp [tree.bst, tree.inorder, sorted]
  | node c l e r ihl ihr =>
    simp only [tree.bst, tree.inorder, sorted, all_iff, ihl, ihr, List.pairwise_append,
      List.pairwise_cons, List.mem_cons]
    constructor
    · rintro ⟨h1, h2, h3, h4⟩
      refine ⟨h3, ⟨h2, h4⟩, ?_⟩
      rintro a ha b (rfl | hb)
      · exact h1 a ha
      · exact hswo.trans a e b (h1 a ha) (h2 b hb)
    · rintro ⟨h1, ⟨h2, h3⟩, h4⟩
      exact ⟨fun y hy => h4 y hy e (Or.inl rfl), h2, h1, h3⟩

/-- The elements before the hole of a search path are less than the key, those
after it are greater. -/
theorem path_bounds (lt : α → α → Bool) (hswo : strict_weak_order lt) (x : α)
    (ctx : List (frame α)) :
    path_ok lt x ctx → sorted lt (frames_before ctx ++ frames_after ctx) →
    (∀ y ∈ frames_before ctx, lt y x = true) ∧ (∀ y ∈ frames_after ctx, lt x y = true) := by
  induction ctx with
  | nil => intro _ _; simp [frames_before, frames_after]
  | cons f fs ih =>
    intro h1 h2
    obtain ⟨fd, fc, fe, fsib⟩ := f
    obtain ⟨h3, h4⟩ := h1
    cases fd with
    | left =>
      simp only [frames_before, frames_after, List.append_nil, sorted, List.pairwise_append,
        List.pairwise_cons, List.mem_append, List.mem_cons, List.cons_append] at h2 h3 ⊢
      obtain ⟨h5, ⟨h6, h7, h8, h9⟩, h10⟩ := h2
      have := ih h4 (by
        simp only [sorted, List.pairwise_append]
        exact ⟨h5, h8, fun a ha b hb => h10 a ha b (Or.inr (Or.inr hb))⟩)
      refine ⟨this.1, ?_⟩
      rintro y (rfl | hy | hy)
      · exact h3
      · exact hswo.trans x fe y h3 (h6 y (Or.inl hy))
      · exact this.2 y hy
    | right =>
      simp only [frames_before, frames_after, List.nil_append, List.append_assoc,
        List.singleton_append] at h2 h3 ⊢
      simp only [sorted, List.pairwise_append, List.pairwise_cons, List.mem_append,
        List.mem_cons] at h2
      obtain ⟨h5, ⟨_, ⟨_, h8⟩, h9⟩, h10⟩ := h2
      have := ih h4 (by
        simp only [sorted, List.pairwise_append]
        exact ⟨h5, h8, fun a ha b hb => h10 a ha b (Or.inr (Or.inr hb))⟩)
      refine ⟨?_, this.2⟩
      intro y hy
      simp only [List.mem_append, List.mem_cons, List.mem_singleton, List.not_mem_nil,
        or_false] at hy
      rcases hy with hy | hy | rfl
      · exact this.1 y hy
      · exact hswo.trans y fe x (h9 y hy fe (Or.inl rfl)) h3
      · exact h3

theorem inorder_fill_null (ctx : List (frame α)) :
    (fill ctx .null).inorder = frames_before ctx ++ frames_after ctx := by
  simp [inorder_fill, tree.inorder]

theorem inorder_insert_new (ctx : List (frame α)) (x : α) :
    (blacken (insert_fixup ctx (construct_node x) []).1).inorder
      = frames_before ctx ++ x :: frames_after ctx := by
  simp [inorder_blacken, inorder_insert_fixup, construct_node, tree.inorder]

theorem sorted_insert (lt : α → α → Bool) (x : α) (pre post : List α)
    (h : sorted lt (pre ++ post)) (h1 : ∀ y ∈ pre, lt y x = true)
    (h2 : ∀ y ∈ post, lt x y = true) : sorted lt (pre ++ x :: post) := by
  simp only [sorted, List.pairwise_append, List.pairwise_cons, List.mem_cons] at h ⊢
  refine ⟨h.1, ⟨h2, h.2.1⟩, ?_⟩
  rintro a ha b (rfl | hb)
  · exact h1 a ha
  · exact h.2.2 a ha b hb

/-- The two outcomes of `insert(x)` on a set whose traversal is strictly
increasing: either the search finds an equivalent element and nothing
changes, or there is none and the new node goes into the empty hole that the
search reached, between the smaller and the greater elements. -/
theorem insert_cases (lt : α → α → Bool) (hswo : strict_weak_order lt) (s : set α) (x : α)
    (hs : sorted lt s.root_.inorder) :
    (∃ p e, (s.insert lt x).1 = (make_iterator (some p), false) ∧
        s.root_.elem_at (some p) = some e ∧ equiv lt x e ∧ e ∈ s.root_.inorder ∧
        (s.insert lt x).2 = s) ∨
    ((¬ ∃ e ∈ s.root_.inorder, equiv lt x e) ∧ ∃ ctx, fill ctx .null = s.root_ ∧
        (∀ y ∈ frames_before ctx, lt y x = true) ∧ (∀ y ∈ frames_after ctx, lt x y = true) ∧
        s.insert lt x =
          ((make_iterator (some (insert_fixup ctx (construct_node x) []).2), true),
            set.mk (blacken (insert_fixup ctx (construct_node x) []).1) (s.count_ + 1))) := by
  rcases hfind : find_node lt s x false with ⟨⟨fp, q⟩, g⟩
  cases fp with
  | some p =>
    left
    obtain ⟨e, h1, h2, h3⟩ :=
      find_node_loop_found lt s.root_ x s.root_ [] none false p q g rfl hfind
    exact ⟨p, e, by simp [set.insert, hfind], h1, h2, h3, by simp [set.insert, hfind]⟩
  | none =>
    right
    obtain ⟨ctx, h1, h2, h3⟩ := insert_absent lt s x q g hfind
    have h4 : s.root_.inorder = frames_before ctx ++ frames_after ctx := by
      rw [← h2, inorder_fill_null]
    obtain ⟨h5, h6⟩ := path_bounds lt hswo x ctx h1 (by rw [← h4]; exact hs)
    refine ⟨?_, ctx, h2, h5, h6, h3⟩
    rintro ⟨e, he, he1, he2⟩
    rw [h4, List.mem_append] at he
    rcases he with he | he
    · have := h5 e he; simp [he2] at this
    · have := h6 e he; simp [he1] at this

/-- The counted `insert` returns what `insert` returns. -/
theorem insert_counted_fst (lt : α → α → Bool) (s : set α) (x : α) (constructed : Nat) :
    (s.insert_counted lt x constructed).1 = s.insert lt x := by
  simp only [set.insert_counted, set.insert, construct_node_counted]
  split <;> rfl

/-- The counted `insert` constructs one node when it reports `true` and none
when it reports `false`. -/
theorem insert_counted_snd (lt : α → α → Bool) (s : set α) (x : α) (constructed : Nat) :
    (s.insert_counted lt x constructed).2 =
      if (s.insert lt x).1.2 = true then constructed + 1 else constructed := by
  rcases h : find_node lt s x false with ⟨⟨fp, q⟩, g⟩
  cases fp <;> simp [set.insert_counted, set.insert, construct_node_counted, h]

/-- On a set whose traversal is strictly increasing, `insert(x)` of a value
without an equivalent element constructs exactly one node. -/
theorem insert_counted_absent (lt : α → α → Bool) (hswo : strict_weak_order lt) (s : set α)
    (x : α) (constructed : Nat) (hs : sorted lt s.root_.inorder)
    (hx : ¬ ∃ e ∈ s.root_.inorder, equiv lt x e) :
    (s.insert_counted lt x constructed).2 = constructed + 1 := by
  rw [insert_counted_snd]
  rcases insert_cases lt hswo s x hs with ⟨p, e, _, _, h3, h4, _⟩ | ⟨_, ctx, _, _, _, h5⟩
  · exact absurd ⟨e, h4, h3⟩ hx
  · simp [h5]

/-! ### Traversal -/

theorem length_ptrs (t : tree α) (p : List direction_type) : (t.ptrs p).length = t.size := by
  induction t generalizing p with
  | null => rfl
  | node c l e r ihl ihr => simp [tree.ptrs, tree.size, ihl, ihr]; omega

theorem length_inorder (t : tree α) : t.inorder.length = t.size := by
  induction t with
  | null => rfl
  | node c l e r ihl ihr => simp [tree.inorder, tree.size, ihl, ihr]; omega

/-- Following `next` along a linked list of pointers collects their elements. -/
theorem traverse_from_chain (root : tree α) : ∀ (ps : List (List direction_type)) (es : List α)
    (fuel : Nat), ps.length < fuel →
    List.Chain' (fun a b => next root (some a) right = some b) ps →
    ps.map (fun q => root.elem_at (some q)) = es.map some →
    (∀ z, ps.getLast? = some z → next root (some z) right = none) →
    traverse_from root fuel ps.head? = some es := by
  intro ps
  induction ps with
  | nil =>
    intro es fuel h1 _ h3 _
    cases fuel with
    | zero => simp at h1
    | succ n =>
      cases es with
      | nil => rfl
      | cons e es => simp at h3
  | cons q ps ih =>
    intro es fuel h1 h2 h3 h4
    cases fuel with
    | zero => simp at h1
    | succ n =>
      cases es with
      | nil => simp at h3
      | cons e es =>
        simp only [List.map_cons, List.cons.injEq] at h3
        have hn : next root (some q) right = ps.head? := by
          cases ps with
          | nil => simpa using h4 q (by simp)
          | cons q1 ps1 =>
            rw [List.chain'_cons] at h2
            simpa using h2.1
        have hrec := ih es n (by simpa using h1) (List.Chain'.tail h2) h3.2 (by
          intro z hz
          apply h4 z
          cases ps with
          | nil => simp at hz
          | cons q1 ps1 => simpa [List.getLast?_cons_cons] using hz)
        simp only [List.head?_cons, traverse_from, h3.1, hn, hrec]

/-- With more fuel than there are nodes, iterating from `begin()` to `end()`
yields the in-order traversal of the tree. -/
theorem traverse_eq_inorder (s : set α) (fuel : Nat) (h : s.root_.size < fuel) :
    s.traverse fuel = some s.root_.inorder := by
  obtain ⟨h1, h2, h3⟩ := ptrs_chain s.root_ s.root_ [] rfl
  have hb : begin_ s = (s.root_.ptrs []).head? := by
    rw [h3, begin_]; rfl
  rw [set.traverse, hb]
  exact traverse_from_chain s.root_ _ _ fuel (by rw [length_ptrs]; exact h) h1
    (elem_at_ptrs s.root_ s.root_ [] rfl) (fun z hz => by rw [h2 z hz]; rfl)

theorem less_nat_strict_weak_order : strict_weak_order (less : Nat → Nat → Bool) := by
  constructor
  · intro a; simp [less]
  · intro a b c; simp only [less, decide_eq_true_eq]; omega
  · intro a b c; simp only [less, decide_eq_false_iff_not, not_lt]; omega

theorem elem_at_insert_new (ctx : List (frame α)) (x : α) :
    (blacken (insert_fixup ctx (construct_node x) []).1).elem_at
      (make_iterator (some (insert_fixup ctx (construct_node x) []).2)) = some x := by
  rw [make_iterator, elem_at_eq, root_elem_at_ptr_blacken, at_ptr_insert_fixup]
  rfl

/-- One `insert` on a strictly increasing set: the traversal stays strictly
increasing, keeps its elements, gains at most `x`, and afterwards holds an
element equivalent to `x`. -/
theorem insert_step (lt : α → α → Bool) (hswo : strict_weak_order lt) (s : set α) (x : α)
    (hs : sorted lt s.root_.inorder) :
    sorted lt (s.insert lt x).2.root_.inorder ∧
    (∀ y ∈ (s.insert lt x).2.root_.inorder, y ∈ s.root_.inorder ∨ y = x) ∧
    (∀ y ∈ s.root_.inorder, y ∈ (s.insert lt x).2.root_.inorder) ∧
    (∃ y ∈ (s.insert lt x).2.root_.inorder, equiv lt x y) ∧
    (s.insert lt x).2.root_.size ≤ s.root_.size + 1 := by
  rcases insert_cases lt hswo s x hs with ⟨p, e, _, _, h3, h4, h5⟩ | ⟨_, ctx, h2, h3, h4, h5⟩
  · rw [h5]
    exact ⟨hs, fun y hy => Or.inl hy, fun y hy => hy, ⟨e, h4, h3⟩, by omega⟩
  · have hold : s.root_.inorder = frames_before ctx ++ frames_after ctx := by
      rw [← h2, inorder_fill_null]
    have hnew : (s.insert lt x).2.root_.inorder = frames_before ctx ++ x :: frames_after ctx := by
      rw [h5]; exact inorder_insert_new ctx x
    have hsize : (s.insert lt x).2.root_.size = s.root_.size + 1 := by
      rw [← length_inorder, ← length_inorder, hnew, hold]; simp; omega
    rw [hnew, hold]
    refine ⟨sorted_insert lt x _ _ (by rw [← hold]; exact hs) h3 h4, ?_, ?_, ?_, by omega⟩
    · intro y hy
      simp only [List.mem_append, List.mem_cons] at hy ⊢
      tauto
    · intro y hy
      simp only [List.mem_append, List.mem_cons] at hy ⊢
      tauto
    · exact ⟨x, by simp, hswo.irrefl x, hswo.irrefl x⟩

theorem insert_each_spec (lt : α → α → Bool) (hswo : strict_weak_order lt) :
    ∀ (xs : List α) (s : set α), sorted lt s.root_.inorder →
    sorted lt (insert_each lt s xs).root_.inorder ∧
    (∀ y ∈ (insert_each lt s xs).root_.inorder, y ∈ s.root_.inorder ∨ y ∈ xs) ∧
    (∀ x, x ∈ xs ∨ x ∈ s.root_.inorder →
      ∃ y ∈ (insert_each lt s xs).root_.inorder, equiv lt x y) ∧
    (insert_each lt s xs).root_.size ≤ s.root_.size + xs.length := by
  intro xs
  induction xs with
  | nil =>
    intro s hs
    refine ⟨hs, fun y hy => Or.inl hy, ?_, by simp [insert_each]⟩
    rintro x (hx | hx)
    · simp at hx
    · exact ⟨x, hx, hswo.irrefl x, hswo.irrefl x⟩
  | cons a xs ih =>
    intro s hs
    obtain ⟨h1, h2, h3, ⟨y0, h4, h5⟩, h6⟩ := insert_step lt hswo s a hs
    obtain ⟨i1, i2, i3, i4⟩ := ih (s.insert lt a).2 h1
    simp only [insert_each]
    refine ⟨i1, ?_, ?_, ?_⟩
    · intro y hy
      rcases i2 y hy with h | h
      · rcases h2 y h with h | rfl
        · exact Or.inl h
        · exact Or.inr (by simp)
      · exact Or.inr (by simp [h])
    · rintro x (hx | hx)
      · rcases List.mem_cons.mp hx with rfl | hx
        · obtain ⟨y1, hy1, hy2⟩ := i3 y0 (Or.inr h4)
          exact ⟨y1, hy1, hswo.incomp_trans x y0 y1 h5.1 h5.2 hy2.1 hy2.2⟩
        · exact i3 x (Or.inl hx)
      · exact i3 x (Or.inr (h3 x hx))
    · simp only [List.length_cons]; omega

/-! ### Erase -/

theorem erase_fix_node_both_black (d : direction_type) (pc : color) (x : tree α) (pe : α)
    (wl : tree α) (we : α) (wr : tree α)
    (hfar2 : is_red ((tree.node color.black wl we wr).child d.opposite) = false)
    (hnear2 : ∀ l e r,
      (tree.node color.black wl we wr).child d ≠ tree.node color.red l e r) :
    erase_fix_node d pc x pe (.node .black wl we wr)
      = (mk_node d pc x pe (.node .red wl we wr), true) := by
  cases d with
  | left =>
    simp only [tree.child, direction_type.opposite] at hfar2
    cases wl with
    | null => simp [erase_fix_node, hfar2, tree.child, direction_type.opposite]
    | node c a b e =>
      cases c with
      | black => simp [erase_fix_node, hfar2, tree.child, direction_type.opposite]
      | red => exact absurd rfl (hnear2 a b e)
  | right =>
    simp only [tree.child, direction_type.opposite] at hfar2
    cases wr with
    | null => simp [erase_fix_node, hfar2, tree.child, direction_type.opposite]
    | node c a b e =>
      cases c with
      | black => simp [erase_fix_node, hfar2, tree.child, direction_type.opposite]
      | red => exact absurd rfl (hnear2 a b e)

/-- The erase-side repair at one parent: either the deficit is absorbed and the
subtree has its old black height, or the subtree is one black short and is red
when the parent was red. -/
theorem erase_fix_node_inv (d : direction_type) (pc : color) (x : tree α) (pe : α) (w : tree α) :
    is_red x = false → no_red_red x → balanced x → balanced w → no_red_red w →
    bheight w = bheight x + 1 → (pc = .red → is_red w = false) →
    balanced (erase_fix_node d pc x pe w).1 ∧
    ((erase_fix_node d pc x pe w).2 = false →
      no_red_red (erase_fix_node d pc x pe w).1 ∧
      bheight (erase_fix_node d pc x pe w).1 = bheight x + 1 + (if pc = .black then 1 else 0) ∧
      (is_red (erase_fix_node d pc x pe w).1 = true → pc = .red)) ∧
    ((erase_fix_node d pc x pe w).2 = true →
      no_red_red (blacken (erase_fix_node d pc x pe w).1) ∧
      bheight (erase_fix_node d pc x pe w).1 = bheight x + (if pc = .black then 1 else 0) ∧
      (pc = .red → is_red (erase_fix_node d pc x pe w).1 = true)) := by
  induction d, pc, x, pe, w using erase_fix_node.induct with
  | case1 d pc x pe =>
    intro h1 h2 h3 h4 h5 h6 h7
    simp [bheight] at h6
  | case2 pc x pe wl we wr ih =>
    intro h1 h2 h3 h4 h5 h6 h7
    have hpc : pc = .black := by cases pc <;> simp_all [is_red]
    subst hpc
    obtain ⟨i1, i2, i3⟩ := ih h1 h2 h3 (by simp_all [balanced]) (by simp_all [no_red_red])
      (by simp_all [bheight]) (by intro; simp_all [no_red_red])
    have hres : erase_fix_node .left .black x pe (.node .red wl we wr)
        = (.node .black
            (if (erase_fix_node .left .red x pe wl).2 then
              blacken (erase_fix_node .left .red x pe wl).1
            else (erase_fix_node .left .red x pe wl).1) we wr, false) := by
      simp only [erase_fix_node]
    rw [hres]
    clear hres ih
    generalize erase_fix_node .left .red x pe wl = res at *
    obtain ⟨sub, deficit⟩ := res
    have hb : bheight wr = bheight x + 1 := by simp_all [bheight, balanced]
    have hbo : balanced wr := by simp_all [balanced]
    have hno : no_red_red wr := by simp_all [no_red_red]
    clear h4 h5 h6 h7
    cases deficit with
    | false =>
      obtain ⟨j1, j2, j3⟩ := i2 rfl
      simp only at j1 j2 j3 i1
      simp [balanced, no_red_red, bheight, is_red, i1, j1, j2, hb, hbo, hno]
    | true =>
      obtain ⟨j1, j2, j3⟩ := i3 rfl
      simp only at j1 j2 j3 i1
      have k1 := bheight_blacken_red _ (j3 trivial)
      have k2 := balanced_blacken _ i1
      simp [balanced, no_red_red, bheight, is_red, k1, k2, j1, j2, hb, hbo, hno]
  | case3 pc x pe wl we wr ih =>
    intro h1 h2 h3 h4 h5 h6 h7
    have hpc : pc = .black := by cases pc <;> simp_all [is_red]
    subst hpc
    obtain ⟨i1, i2, i3⟩ := ih h1 h2 h3 (by simp_all [balanced]) (by simp_all [no_red_red])
      (by simp_all [bheight, balanced]) (by intro; simp_all [no_red_red])
    have hres : erase_fix_node .right .black x pe (.node .red wl we wr)
        = (.node .black wl we
            (if (erase_fix_node .right .red x pe wr).2 then
              blacken (erase_fix_node .right .red x pe wr).1
            else (erase_fix_node .right .red x pe wr).1), false) := by
      simp only [erase_fix_node]
    rw [hres]
    clear hres ih
    generalize erase_fix_node .right .red x pe wr = res at *
    obtain ⟨sub, deficit⟩ := res
    have hb : bheight wl = bheight x + 1 := by simp_all [bheight, balanced]
    have hbo : balanced wl := by simp_all [balanced]
    have hno : no_red_red wl := by simp_all [no_red_red]
    clear h4 h5 h6 h7
    cases deficit with
    | false =>
      obtain ⟨j1, j2, j3⟩ := i2 rfl
      simp only at j1 j2 j3 i1
      simp [balanced, no_red_red, bheight, is_red, i1, j1, j2, hb, hbo, hno]
    | true =>
      obtain ⟨j1, j2, j3⟩ := i3 rfl
      simp only at j1 j2 j3 i1
      have k1 := bheight_blacken_red _ (j3 trivial)
      have k2 := balanced_blacken _ i1
      simp [balanced, no_red_red, bheight, is_red, k1, k2, j1, j2, hb, hbo, hno]
  | case4 d pc x pe wl we wr far hfar =>
    intro h1 h2 h3 h4 h5 h6 h7
    simp only [erase_fix_node]
    have hfar2 : is_red ((tree.node color.black wl we wr).child d.opposite) = true := hfar
    simp only [hfar2, if_true]
    have := bheight_blacken_red _ hfar2
    have := balanced_blacken ((tree.node color.black wl we wr).child d.opposite)
    have := no_red_red_blacken ((tree.node color.black wl we wr).child d.opposite)
    have := is_red_blacken ((tree.node color.black wl we wr).child d.opposite)
    cases d <;> cases pc <;>
      simp_all [mk_node, tree.child, direction_type.opposite, balanced, no_red_red, bheight,
        is_red]
  | case5 d pc x pe wl we wr near far hfar nl ne nr hnear =>
    intro h1 h2 h3 h4 h5 h6 h7
    have hfar2 : is_red ((tree.node color.black wl we wr).child d.opposite) = false := by
      simpa using hfar
    have hnear2 : (tree.node color.black wl we wr).child d = tree.node color.red nl ne nr := hnear
    simp only [erase_fix_node, hfar2, hnear2]
    cases d <;> cases pc <;>
      simp_all [mk_node, tree.child, direction_type.opposite, balanced, no_red_red, bheight,
        is_red]
  | case6 d pc x pe wl we wr near far hfar hnear =>
    intro h1 h2 h3 h4 h5 h6 h7
    have hfar2 : is_red ((tree.node color.black wl we wr).child d.opposite) = false := by
      simpa using hfar
    have hnear2 : ∀ l e r, (tree.node color.black wl we wr).child d ≠ tree.node color.red l e r :=
      hnear
    have hres := erase_fix_node_both_black d pc x pe wl we wr hfar2 hnear2
    rw [hres]
    have hnr : is_red ((tree.node color.black wl we wr).child d) = false := by
      cases hn : (tree.node color.black wl we wr).child d with
      | null => rfl
      | node c a b e =>
        cases c with
        | black => rfl
        | red => exact absurd hn (hnear2 a b e)
    clear hres hnear hfar hnear2
    cases d <;> cases pc <;>
      simp_all [mk_node, tree.child, direction_type.opposite, balanced, no_red_red, bheight,
        is_red, blacken]

theorem inorder_erase_fix_node (d : direction_type) (pc : color) (x : tree α) (pe : α)
    (w : tree α) :
    (erase_fix_node d pc x pe w).1.inorder = (mk_node d pc x pe w).inorder := by
  induction d, pc, x, pe, w using erase_fix_node.induct with
  | case1 d pc x pe => simp [erase_fix_node]
  | case2 pc x pe wl we wr ih =>
    simp only [erase_fix_node]
    split_ifs <;> simp [inorder_blacken, ih, mk_node, tree.inorder]
  | case3 pc x pe wl we wr ih =>
    simp only [erase_fix_node]
    split_ifs <;> simp [inorder_blacken, ih, mk_node, tree.inorder]
  | case4 d pc x pe wl we wr far hfar =>
    have hfar2 : is_red ((tree.node color.black wl we wr).child d.opposite) = true := hfar
    simp only [erase_fix_node, hfar2, if_true]
    cases d <;> simp [mk_node, tree.inorder, tree.child, direction_type.opposite, inorder_blacken]
  | case5 d pc x pe wl we wr near far hfar nl ne nr hnear =>
    have hfar2 : is_red ((tree.node color.black wl we wr).child d.opposite) = false := by
      simpa using hfar
    have hnear2 : (tree.node color.black wl we wr).child d = tree.node color.red nl ne nr := hnear
    simp only [erase_fix_node, hfar2, hnear2]
    cases d <;> simp_all [mk_node, tree.inorder, tree.child, direction_type.opposite]
  | case6 d pc x pe wl we wr near far hfar hnear =>
    have hfar2 : is_red ((tree.node color.black wl we wr).child d.opposite) = false := by
      simpa using hfar
    rw [erase_fix_node_both_black d pc x pe wl we wr hfar2 hnear]
    cases d <;> simp [mk_node, tree.inorder]

theorem inorder_erase_fixup (ctx : List (frame α)) (x : tree α) :
    (erase_fixup ctx x).inorder = frames_before ctx ++ x.inorder ++ frames_after ctx := by
  induction ctx, x using erase_fixup.induct with
  | case1 x => simp [erase_fixup, inorder_blacken, frames_before, frames_after]
  | case2 f fs x h => simp [erase_fixup, h, inorder_fill, inorder_blacken]
  | case3 f fs x h sub hsub ih =>
    have h2 : is_red x = false := by simpa using h
    have hi : sub.inorder = (mk_node f.dir f.c x f.elem f.sibling).inorder := by
      have := inorder_erase_fix_node f.dir f.c x f.elem f.sibling
      rw [hsub] at this
      exact this
    simp only [erase_fixup, h2, hsub, Bool.false_eq_true, if_false]
    rw [ih, hi]
    cases hd : f.dir <;> simp [mk_node, tree.inorder, frames_before, frames_after, hd]
  | case4 f fs x h sub hsub =>
    have h2 : is_red x = false := by simpa using h
    have hi : sub.inorder = (mk_node f.dir f.c x f.elem f.sibling).inorder := by
      have := inorder_erase_fix_node f.dir f.c x f.elem f.sibling
      rw [hsub] at this
      exact this
    simp only [erase_fixup, h2, hsub, Bool.false_eq_true, if_false]
    rw [inorder_fill, hi]
    cases hd : f.dir <;> simp [mk_node, tree.inorder, frames_before, frames_after, hd]

theorem ctx_inv_cons_black (d : direction_type) (e : α) (sib : tree α) (fs : List (frame α))
    (h : Nat) :
    ctx_inv (frame.mk d .black e sib :: fs) h ↔
      balanced sib ∧ no_red_red sib ∧ bheight sib = h ∧ ctx_inv fs (h + 1) := Iff.rfl

theorem ctx_inv_cons_red (d : direction_type) (e : α) (sib : tree α) (fs : List (frame α))
    (h : Nat) :
    ctx_inv (frame.mk d .red e sib :: fs) h ↔
      balanced sib ∧ no_red_red sib ∧ bheight sib = h ∧ is_red sib = false ∧
        (∃ g gs, fs = g :: gs ∧ g.c = .black) ∧ ctx_inv fs h := Iff.rfl

theorem is_red_fill (ctx : List (frame α)) : ∀ (t : tree α) (h : Nat),
    ctx_inv ctx h → ctx ≠ [] → is_red (fill ctx t) = false := by
  induction ctx with
  | nil => intro t h _ h2; exact absurd rfl h2
  | cons f fs ih =>
    intro t h h1 _
    obtain ⟨fd, fc, fe, fsib⟩ := f
    rw [fill]
    cases fs with
    | nil =>
      cases fc <;> cases fd <;> simp_all [ctx_inv, fill, frame.plug, mk_node, is_red]
    | cons g gs =>
      cases fc with
      | black => exact ih _ (h + 1) ((ctx_inv_cons_black _ _ _ _ _).mp h1).2.2.2 (by simp)
      | red => exact ih _ h ((ctx_inv_cons_red _ _ _ _ _).mp h1).2.2.2.2.2 (by simp)

/-- The erase-side walk upwards restores the colouring around a subtree that is
one black short. -/
theorem erase_fixup_inv (ctx : List (frame α)) (x : tree α) :
    ctx_inv ctx (bheight x + 1) → balanced x → no_red_red (blacken x) →
    no_red_red (erase_fixup ctx x) ∧ balanced (erase_fixup ctx x) ∧
      is_red (erase_fixup ctx x) = false := by
  induction ctx, x using erase_fixup.induct with
  | case1 x =>
    intro _ h2 h3
    exact ⟨h3, balanced_blacken x h2, is_red_blacken x⟩
  | case2 f fs x h =>
    intro h1 h2 h3
    simp only [erase_fixup, h, if_true]
    have hb := bheight_blacken_red x h
    have := fill_inv (f :: fs) (blacken x) (by rw [hb]; exact h1) (balanced_blacken x h2) h3
      (fun _ => is_red_blacken x)
    exact ⟨this.1, this.2, is_red_fill (f :: fs) _ _ h1 (by simp)⟩
  | case3 f fs x h sub hsub ih =>
    intro h1 h2 h3
    have hx : is_red x = false := by simpa using h
    have hx2 : no_red_red x := by
      cases x with
      | null => trivial
      | node c l e r => cases c <;> simp_all [is_red, blacken, no_red_red]
    simp only [erase_fixup, hx, hsub, Bool.false_eq_true, if_false]
    obtain ⟨fd, fc, fe, fsib⟩ := f
    simp only [ctx_inv] at h1
    obtain ⟨ha, hb, hc, hd⟩ := h1
    obtain ⟨i1, _, i3⟩ := erase_fix_node_inv fd fc x fe fsib hx hx2 h2 ha hb hc
      (by intro hc2; subst hc2; exact hd.1)
    simp only [hsub] at i1 i3
    obtain ⟨j1, j2, _⟩ := i3 trivial
    apply ih _ i1 j1
    rw [j2]
    cases fc <;> simp_all
  | case4 f fs x h sub hsub =>
    intro h1 h2 h3
    have hx : is_red x = false := by simpa using h
    have hx2 : no_red_red x := by
      cases x with
      | null => trivial
      | node c l e r => cases c <;> simp_all [is_red, blacken, no_red_red]
    simp only [erase_fixup, hx, hsub, Bool.false_eq_true, if_false]
    obtain ⟨fd, fc, fe, fsib⟩ := f
    simp only [ctx_inv] at h1
    obtain ⟨ha, hb, hc, hd⟩ := h1
    obtain ⟨i1, i2, _⟩ := erase_fix_node_inv fd fc x fe fsib hx hx2 h2 ha hb hc
      (by intro hc2; subst hc2; exact hd.1)
    simp only [hsub] at i1 i2
    obtain ⟨j1, j2, j3⟩ := i2 trivial
    have hctx : ctx_inv fs (bheight sub) := by
      rw [j2]; cases fc <;> simp_all
    have hpr : parent_red fs = true → is_red sub = false := by
      intro hp
      cases fc with
      | black =>
        cases hs : is_red sub with
        | false => rfl
        | true => simpa using j3 hs
      | red =>
        obtain ⟨_, ⟨g, gs, rfl, hg⟩, _⟩ := hd
        simp [parent_red, hg] at hp
    have := fill_inv fs sub hctx i1 j1 hpr
    refine ⟨this.1, this.2, ?_⟩
    cases fs with
    | nil =>
      simp only [fill]
      cases fc with
      | black =>
        cases hs : is_red sub with
        | false => rfl
        | true => simpa using j3 hs
      | red =>
        obtain ⟨_, ⟨g, gs, hgs, _⟩, _⟩ := hd
        simp at hgs
    | cons g gs => exact is_red_fill (g :: gs) _ _ hctx (by simp)

theorem fill_zoom_down (t : tree α) (ds : List direction_type) (acc : List (frame α)) :
    fill (zoom_down t ds acc).1 (zoom_down t ds acc).2 = fill acc t := by
  induction ds generalizing t acc with
  | nil => cases t <;> rfl
  | cons d ds ih =>
    cases t with
    | null => rfl
    | node c l e r =>
      cases d with
      | left => simp only [zoom_down]; rw [ih]; rfl
      | right => simp only [zoom_down]; rw [ih]; rfl

theorem descend_null (ds : List direction_type) : (tree.null : tree α).descend ds = .null := by
  induction ds with
  | nil => rfl
  | cons d ds ih => simpa [tree.descend, tree.child] using ih

theorem zoom_down_snd (t : tree α) (ds : List direction_type) (acc : List (frame α)) :
    (zoom_down t ds acc).2 = t.descend ds := by
  induction ds generalizing t acc with
  | nil => cases t <;> rfl
  | cons d ds ih =>
    cases t with
    | null => simp [zoom_down, descend_null]
    | node c l e r =>
      cases d with
      | left => simp only [zoom_down, tree.descend, tree.child]; rw [ih]
      | right => simp only [zoom_down, tree.descend, tree.child]; rw [ih]

theorem fill_zoom (root : tree α) (p : List direction_type) :
    fill (zoom root p).1 (zoom root p).2 = root := by
  simpa [zoom, fill] using fill_zoom_down root p.reverse []

theorem zoom_snd (root : tree α) (p : List direction_type) : (zoom root p).2 = root.at_ptr p :=
  zoom_down_snd root p.reverse []

theorem fill_append (a b : List (frame α)) (t : tree α) :
    fill (a ++ b) t = fill b (fill a t) := by
  induction a generalizing t with
  | nil => rfl
  | cons f fs ih => simp [fill, ih]

theorem frames_before_append (a b : List (frame α)) :
    frames_before (a ++ b) = frames_before b ++ frames_before a := by
  induction a with
  | nil => simp [frames_before]
  | cons f fs ih => simp [frames_before, ih]

theorem frames_after_append (a b : List (frame α)) :
    frames_after (a ++ b) = frames_after a ++ frames_after b := by
  induction a with
  | nil => simp [frames_after]
  | cons f fs ih => simp [frames_after, ih]

/-- The walk to the minimum of a subtree goes left only and ends at a node
without a left child. -/
theorem zoom_min_spec : ∀ (t : tree α) (acc : List (frame α)), t.is_node = true →
    ∃ sctx sc sl se sr, zoom_min t acc = (sctx ++ acc, .node sc sl se sr) ∧
      sl.is_node = false ∧ fill sctx (.node sc sl se sr) = t ∧ frames_before sctx = [] := by
  intro t
  induction t with
  | null => intro acc h; simp [tree.is_node] at h
  | node c l e r ihl _ =>
    intro acc _
    cases hl : l.is_node with
    | false =>
      exact ⟨[], c, l, e, r, by simp [zoom_min, hl], hl, rfl, rfl⟩
    | true =>
      obtain ⟨sctx, sc, sl, se, sr, h1, h2, h3, h4⟩ := ihl (frame.mk .left c e r :: acc) hl
      refine ⟨sctx ++ [frame.mk .left c e r], sc, sl, se, sr, ?_, h2, ?_, ?_⟩
      · simp [zoom_min, hl, h1]
      · rw [fill_append, h3]; rfl
      · rw [frames_before_append, h4]; rfl

theorem inorder_not_node (t : tree α) (h : t.is_node = false) : t.inorder = [] := by
  cases t with
  | null => rfl
  | node c l e r => simp [tree.is_node] at h

/-- The colouring invariants of a way up do not look at the elements. -/
theorem ctx_inv_shape : ∀ (a b : List (frame α)) (h : Nat),
    a.map frame.shape = b.map frame.shape → ctx_inv a h → ctx_inv b h := by
  intro a
  induction a with
  | nil =>
    intro b h hab _
    cases b with
    | nil => trivial
    | cons g gs => simp at hab
  | cons f fs ih =>
    intro b h hab hinv
    cases b with
    | nil => simp at hab
    | cons g gs =>
      obtain ⟨fd, fc, fe, fsib⟩ := f
      obtain ⟨gd, gc, ge, gsib⟩ := g
      simp only [List.map_cons, List.cons.injEq, frame.shape, Prod.mk.injEq] at hab
      obtain ⟨⟨rfl, rfl, rfl⟩, hrest⟩ := hab
      cases fc with
      | black =>
        rw [ctx_inv_cons_black] at hinv ⊢
        exact ⟨hinv.1, hinv.2.1, hinv.2.2.1, ih gs _ hrest hinv.2.2.2⟩
      | red =>
        rw [ctx_inv_cons_red] at hinv ⊢
        obtain ⟨h1, h2, h3, h4, ⟨k, ks, rfl, hk⟩, h6⟩ := hinv
        refine ⟨h1, h2, h3, h4, ?_, ih gs _ hrest h6⟩
        cases gs with
        | nil => simp at hrest
        | cons k2 ks2 =>
          refine ⟨k2, ks2, rfl, ?_⟩
          simp only [List.map_cons, List.cons.injEq, frame.shape, Prod.mk.injEq] at hrest
          rw [← hrest.1.2.1]; exact hk

/-- Splicing a node out of a well-coloured tree leaves a well-coloured tree. -/
theorem splice_inv (ctx : List (frame α)) (c : color) (l r : tree α) (e : α) :
    ctx_inv ctx (bheight (tree.node c l e r)) → balanced (tree.node c l e r) →
    no_red_red (tree.node c l e r) → (ctx = [] → c = .black) →
    no_red_red (splice ctx (.node c l e r)) ∧ balanced (splice ctx (.node c l e r)) ∧
      (ctx ≠ [] → is_red (splice ctx (.node c l e r)) = false) ∧
      (ctx = [] → is_red (splice ctx (.node c l e r)) = false) := by
  intro h1 h2 h3 h4
  have hx : ∀ x, x = (if l.is_node then l else r) →
      bheight x = bheight l ∧ balanced x ∧ no_red_red x := by
    intro x hx
    split_ifs at hx <;> subst hx <;> simp_all [balanced, no_red_red]
  obtain ⟨x1, x2, x3⟩ := hx _ rfl
  cases c with
  | black =>
    simp only [splice, if_true]
    have := erase_fixup_inv ctx (if l.is_node then l else r)
      (by rw [x1]; simpa [bheight] using h1) x2 (no_red_red_blacken _ x3)
    exact ⟨this.1, this.2.1, fun _ => this.2.2, fun _ => this.2.2⟩
  | red =>
    have hne : ctx ≠ [] := fun h => by simpa using h4 h
    have hxr : is_red (if l.is_node then l else r) = false := by
      split_ifs <;> simp_all [no_red_red]
    simp only [splice]
    have hc : ctx_inv ctx (bheight (if l.is_node then l else r)) := by
      rw [x1]; simpa [bheight] using h1
    have := fill_inv ctx _ hc x2 x3 (fun _ => hxr)
    simp only [reduceCtorEq, if_false]
    exact ⟨this.1, this.2, fun _ => is_red_fill ctx _ _ hc hne, fun h => absurd h hne⟩

theorem inorder_splice (ctx : List (frame α)) (c : color) (l r : tree α) (e : α)
    (h : l.is_node = false ∨ r.is_node = false) :
    (splice ctx (.node c l e r)).inorder
      = frames_before ctx ++ l.inorder ++ r.inorder ++ frames_after ctx := by
  have hx : (if l.is_node then l else r).inorder = l.inorder ++ r.inorder := by
    cases hl : l.is_node with
    | false => simp [inorder_not_node l hl]
    | true =>
      have hr : r.is_node = false := by simpa [hl] using h
      simp [inorder_not_node r hr]
  simp only [splice]
  generalize (if l.is_node then l else r) = x at hx ⊢
  split_ifs <;> simp [inorder_erase_fixup, inorder_fill, hx]

/-- What a successful `erase` does: it splices a node with at most one child
out of a tree that has the colours and shape of the old one; the traversal of
the old tree is the spliced one with the erased element put back. -/
theorem erase_shape (s s1 : set α) (position : iterator) (h : s.erase position = some s1) :
    ∃ (ctx2 ctx0 : List (frame α)) (c : color) (l r : tree α) (e1 e2 e0 : α)
      (pre post : List α),
      s1 = set.mk (splice ctx2 (.node c l e1 r)) (s.count_ - 1) ∧
      (l.is_node = false ∨ r.is_node = false) ∧
      fill ctx0 (.node c l e2 r) = s.root_ ∧ ctx0.map frame.shape = ctx2.map frame.shape ∧
      s.root_.inorder = pre ++ e0 :: post ∧
      frames_before ctx2 ++ l.inorder ++ r.inorder ++ frames_after ctx2 = pre ++ post ∧
      s.root_.elem_at position = some e0 := by
  cases position with
  | none => simp [set.erase] at h
  | some p =>
    simp only [set.erase] at h
    have hz1 := fill_zoom s.root_ p
    have hz2 := zoom_snd s.root_ p
    rcases hz : zoom s.root_ p with ⟨ctx, t⟩
    rw [hz] at h hz1 hz2
    simp only at h hz1 hz2
    cases t with
    | null => simp at h
    | node c l e r =>
      simp only at h
      have hel : s.root_.elem_at (some p) = some e := by
        rw [elem_at_eq, ← hz2]; rfl
      have hin : s.root_.inorder
          = frames_before ctx ++ l.inorder ++ e :: (r.inorder ++ frames_after ctx) := by
        rw [← hz1, inorder_fill]; simp [tree.inorder]
      by_cases h2 : (l.is_node && r.is_node) = true
      · rw [if_pos h2] at h
        have hrn : r.is_node = true := by
          simp only [Bool.and_eq_true] at h2; exact h2.2
        obtain ⟨sctx, sc, sl, se, sr, m1, m2, m3, m4⟩ := zoom_min_spec r [] hrn
        rw [m1] at h
        simp only [List.append_nil, Option.some.injEq] at h
        refine ⟨sctx ++ frame.mk .right c se l :: ctx, sctx ++ frame.mk .right c e l :: ctx,
          sc, sl, sr, e, se, e, frames_before ctx ++ l.inorder, r.inorder ++ frames_after ctx,
          h.symm, Or.inl m2, ?_, ?_, hin, ?_, hel⟩
        · rw [fill_append, m3, ← hz1]; rfl
        · simp [frame.shape]
        · have hr : r.inorder = se :: sr.inorder ++ frames_after sctx := by
            rw [← m3, inorder_fill, m4]; simp [tree.inorder, inorder_not_node sl m2]
          rw [frames_before_append, frames_after_append, m4, hr]
          simp [frames_before, frames_after, inorder_not_node sl m2]
      · rw [if_neg h2] at h
        simp only [Option.some.injEq] at h
        refine ⟨ctx, ctx, c, l, r, e, e, e, frames_before ctx ++ l.inorder,
          r.inorder ++ frames_after ctx, h.symm, ?_, hz1, rfl, hin, by simp, hel⟩
        cases hl : l.is_node with
        | false => exact Or.inl rfl
        | true =>
          cases hr : r.is_node with
          | false => exact Or.inr rfl
          | true => simp [hl, hr] at h2

/-- A successful `erase` removes one element of the traversal, the one the
iterator denotes, and decrements the size counter. -/
theorem erase_inorder (s s1 : set α) (position : iterator) (h : s.erase position = some s1) :
    ∃ pre e post, s.root_.inorder = pre ++ e :: post ∧ s1.root_.inorder = pre ++ post ∧
      s.root_.elem_at position = some e ∧ s1.count_ = s.count_ - 1 := by
  obtain ⟨ctx2, ctx0, c, l, r, e1, e2, e0, pre, post, h1, h2, _, _, h5, h6, h7⟩ :=
    erase_shape s s1 position h
  refine ⟨pre, e0, post, h5, ?_, h7, by rw [h1]⟩
  rw [h1]
  simp only
  rw [inorder_splice ctx2 c l r e1 h2, h6]

/-- A successful `erase` keeps the tree well coloured. -/
theorem erase_inv (s s1 : set α) (position : iterator) (h : s.erase position = some s1)
    (hr : is_red s.root_ = false) (hn : no_red_red s.root_) (hb : balanced s.root_) :
    is_red s1.root_ = false ∧ no_red_red s1.root_ ∧ balanced s1.root_ := by
  obtain ⟨ctx2, ctx0, c, l, r, e1, e2, e0, pre, post, h1, _, h3, h4, _, _, _⟩ :=
    erase_shape s s1 position h
  rw [← h3] at hr hn hb
  obtain ⟨i1, i2, i3, _, i5⟩ := ctx_inv_of_fill ctx0 _ hr hn hb
  have j1 : ctx_inv ctx2 (bheight (tree.node c l e1 r)) := by
    have := ctx_inv_shape ctx0 ctx2 _ h4 i1
    cases c <;> exact this
  have j2 : balanced (tree.node c l e1 r) := i2
  have j3 : no_red_red (tree.node c l e1 r) := i3
  have j4 : ctx2 = [] → c = .black := by
    intro hc
    have h0 : ctx0 = [] := by
      rw [hc] at h4
      simpa using h4
    have := i5 h0
    cases c with
    | black => rfl
    | red => simp [is_red] at this
  obtain ⟨k1, k2, k3, k4⟩ := splice_inv ctx2 c l r e1 j1 j2 j3 j4
  rw [h1]
  refine ⟨?_, k1, k2⟩
  by_cases hc : ctx2 = []
  · exact k4 hc
  · exact k3 hc

/-- Erasing through an iterator that denotes a node succeeds. -/
theorem erase_valid (s : set α) (position : iterator) (e : α)
    (h : s.root_.elem_at position = some e) : ∃ s1, s.erase position = some s1 := by
  cases position with
  | none => simp [tree.elem_at] at h
  | some p =>
    rw [elem_at_eq, ← zoom_snd] at h
    simp only [set.erase]
    rcases hz : zoom s.root_ p with ⟨ctx, t⟩
    rw [hz] at h
    cases t with
    | null => simp [root_elem] at h
    | node c l e r =>
      simp only
      by_cases h2 : (l.is_node && r.is_node) = true
      · rw [if_pos h2]
        have hrn : r.is_node = true := by
          simp only [Bool.and_eq_true] at h2; exact h2.2
        obtain ⟨sctx, sc, sl, se, sr, m1, _, _, _⟩ := zoom_min_spec r [] hrn
        rw [m1]
        exact ⟨_, rfl⟩
      · rw [if_neg h2]
        exact ⟨_, rfl⟩

/-! ### The invariants of reachable sets -/

theorem black_counts_of_balanced (t : tree α) (h : balanced t) :
    ∀ a ∈ black_counts t, a = bheight t := by
  induction t with
  | null => intro a ha; simpa [black_counts, bheight] using ha
  | node c l e r ihl ihr =>
    intro a ha
    obtain ⟨h1, h2, h3⟩ := h
    simp only [black_counts, List.mem_map, List.mem_append] at ha
    obtain ⟨n, hn, rfl⟩ := ha
    have hn2 : n = bheight l := by
      rcases hn with hn | hn
      · exact ihl h2 n hn
      · rw [h1]; exact ihr h3 n hn
    subst hn2
    cases c <;> simp [bheight]

theorem red_black_of_inv (t : tree α) (hr : is_red t = false) (hn : no_red_red t)
    (hb : balanced t) : red_black t := by
  refine ⟨hr, hn, ?_⟩
  intro a ha b hb2
  rw [black_counts_of_balanced t hb a ha, black_counts_of_balanced t hb b hb2]

/-- `insert` keeps the tree well coloured and the size counter equal to the
number of nodes. -/
theorem insert_inv (lt : α → α → Bool) (s : set α) (x : α)
    (hn : no_red_red s.root_) (hb : balanced s.root_)
    (hr : is_red s.root_ = false) (hc : s.count_ = s.root_.size) :
    is_red (s.insert lt x).2.root_ = false ∧ no_red_red (s.insert lt x).2.root_ ∧
      balanced (s.insert lt x).2.root_ ∧ (s.insert lt x).2.count_ = (s.insert lt x).2.root_.size := by
  rcases hfind : find_node lt s x false with ⟨⟨fp, q⟩, g⟩
  cases fp with
  | some p =>
    have : (s.insert lt x).2 = s := by simp [set.insert, hfind]
    rw [this]
    exact ⟨hr, hn, hb, hc⟩
  | none =>
    obtain ⟨ctx, _, h2, h3⟩ := insert_absent lt s x q g hfind
    rw [h3]
    simp only
    rw [← h2] at hr hn hb
    obtain ⟨i1, _, _, _, _⟩ := ctx_inv_of_fill ctx _ hr hn hb
    obtain ⟨j1, j2⟩ := insert_fixup_inv ctx (construct_node x) [] i1 rfl
      (by simp [construct_node, balanced]) (by simp [construct_node, no_red_red, is_red])
    refine ⟨is_red_blacken _, no_red_red_blacken _ j1, balanced_blacken _ j2, ?_⟩
    rw [hc, ← length_inorder, ← length_inorder, inorder_insert_new, ← h2, inorder_fill_null]
    simp only [List.length_append, List.length_cons]
    omega

/-- Every set reached from the empty set by `insert` and `erase` is well
coloured, and its size counter is the number of its nodes. -/
theorem reachable_inv (lt : α → α → Bool) (s : set α) (h : reachable lt s) :
    is_red s.root_ = false ∧ no_red_red s.root_ ∧ balanced s.root_ ∧
      s.count_ = s.root_.size := by
  induction h with
  | empty => simp [set.empty, is_red, no_red_red, balanced, tree.size]
  | insert s x _ ih => exact insert_inv lt s x ih.2.1 ih.2.2.1 ih.1 ih.2.2.2
  | erase s s1 position _ he ih =>
    obtain ⟨h1, h2, h3⟩ := erase_inv s s1 position he ih.1 ih.2.1 ih.2.2.1
    refine ⟨h1, h2, h3, ?_⟩
    obtain ⟨pre, e, post, k1, k2, _, k4⟩ := erase_inorder s s1 position he
    rw [k4, ih.2.2.2, ← length_inorder, ← length_inorder, k1, k2]
    simp

theorem reachable_insert_each (lt : α → α → Bool) (xs : List α) :
    ∀ s, reachable lt s → reachable lt (insert_each lt s xs) := by
  induction xs with
  | nil => intro s h; exact h
  | cons x xs ih => intro s h; exact ih _ (reachable.insert s x h)

/-- Every set reached from the empty set by `insert` and `erase` is traversed in
strictly increasing order. -/
theorem reachable_sorted (lt : α → α → Bool) (hswo : strict_weak_order lt) (s : set α)
    (h : reachable lt s) : sorted lt s.root_.inorder := by
  induction h with
  | empty => simp [set.empty, tree.inorder, sorted]
  | insert s x _ ih => exact (insert_step lt hswo s x ih).1
  | erase s s1 position _ he ih =>
    obtain ⟨pre, e, post, k1, k2, _, _⟩ := erase_inorder s s1 position he
    rw [k1] at ih
    rw [k2]
    exact List.Pairwise.sublist
      (List.Sublist.append_left (List.sublist_cons_self e post) pre) ih

/-- Every set reached from the empty set by `insert` and `erase` holds a search
tree. -/
theorem reachable_bst (lt : α → α → Bool) (hswo : strict_weak_order lt) (s : set α)
    (h : reachable lt s) : s.root_.bst lt :=
  (bst_iff_sorted lt hswo _).mpr (reachable_sorted lt hswo s h)

/-! ### The position of an erased element -/

theorem ptrs_suffix (t : tree α) : ∀ (q0 q : List direction_type), q ∈ t.ptrs q0 →
    ∃ r, q = r ++ q0 := by
  induction t with
  | null => intro q0 q h; simp [tree.ptrs] at h
  | node c l e r ihl ihr =>
    intro q0 q h
    simp only [tree.ptrs, List.mem_append, List.mem_cons] at h
    rcases h with h | rfl | h
    · obtain ⟨r1, rfl⟩ := ihl _ _ h
      exact ⟨r1 ++ [left], by simp⟩
    · exact ⟨[], rfl⟩
    · obtain ⟨r1, rfl⟩ := ihr _ _ h
      exact ⟨r1 ++ [right], by simp⟩

/-- No pointer occurs twice in the in-order list of pointers. -/
theorem ptrs_nodup (t : tree α) : ∀ (q0 : List direction_type), (t.ptrs q0).Nodup := by
  induction t with
  | null => intro q0; simp [tree.ptrs]
  | node c l e r ihl ihr =>
    intro q0
    have hl : ∀ q ∈ l.ptrs (left :: q0), ∃ r1, q = r1 ++ left :: q0 := ptrs_suffix l _
    have hr : ∀ q ∈ r.ptrs (right :: q0), ∃ r1, q = r1 ++ right :: q0 := ptrs_suffix r _
    rw [tree.ptrs, List.nodup_append]
    refine ⟨ihl _, ?_, ?_⟩
    · rw [List.nodup_cons]
      refine ⟨?_, ihr _⟩
      intro h
      obtain ⟨r1, h1⟩ := hr _ h
      have := congrArg List.length h1
      simp at this
      omega
    · intro a ha hb
      obtain ⟨r1, rfl⟩ := hl _ ha
      rcases List.mem_cons.mp hb with h | h
      · have := congrArg List.length h
        simp at this
        omega
      · obtain ⟨r2, h2⟩ := hr _ h
        have := (List.append_inj' h2 (by simp)).2
        simp at this

/-- Where a pointer stands in the in-order list of pointers: behind as many
pointers as there are elements before its node on its way up and in its left
subtree. -/
theorem ptrs_split_zoom_down : ∀ (ds : List direction_type) (t : tree α)
    (acc : List (frame α)) (q0 : List direction_type) (c : color) (l r : tree α) (e : α),
    t.descend ds = .node c l e r →
    ∃ A B, t.ptrs q0 = A ++ (ds.reverse ++ q0) :: B ∧
      A.length + (frames_before acc).length
        = (frames_before (zoom_down t ds acc).1).length + l.size := by
  intro ds
  induction ds with
  | nil =>
    intro t acc q0 c l r e h
    simp only [tree.descend] at h
    subst h
    refine ⟨l.ptrs (left :: q0), r.ptrs (right :: q0), by simp [tree.ptrs], ?_⟩
    simp [zoom_down, length_ptrs]
    omega
  | cons d ds ih =>
    intro t acc q0 c l r e h
    cases t with
    | null => simp [tree.descend, tree.child, descend_null] at h
    | node c1 l1 e1 r1 =>
      cases d with
      | left =>
        simp only [tree.descend, tree.child] at h
        obtain ⟨A, B, h1, h2⟩ := ih l1 (frame.mk .left c1 e1 r1 :: acc) (left :: q0) c l r e h
        refine ⟨A, B ++ q0 :: r1.ptrs (right :: q0), ?_, ?_⟩
        · simp [tree.ptrs, h1]
        · simp only [zoom_down]
          simp only [frames_before, List.append_nil] at h2
          exact h2
      | right =>
        simp only [tree.descend, tree.child] at h
        obtain ⟨A, B, h1, h2⟩ := ih r1 (frame.mk .right c1 e1 l1 :: acc) (right :: q0) c l r e h
        refine ⟨l1.ptrs (left :: q0) ++ q0 :: A, B, ?_, ?_⟩
        · simp [tree.ptrs, h1]
        · simp only [zoom_down]
          simp only [frames_before, List.length_append, List.length_cons, List.length_nil,
            length_inorder] at h2
          simp only [List.length_append, List.length_cons, length_ptrs]
          omega

/-- The in-order index of the node a pointer denotes is the number of elements
before it. -/
theorem ptr_index (root : tree α) (p : List direction_type) (i : Nat)
    (ctx : List (frame α)) (c : color) (l r : tree α) (e : α)
    (hz : zoom root p = (ctx, .node c l e r)) (hp : (root.ptrs [])[i]? = some p) :
    i = (frames_before ctx ++ l.inorder).length := by
  have hd : root.descend p.reverse = .node c l e r := by
    have := zoom_snd root p
    rw [hz] at this
    exact this.symm
  obtain ⟨A, B, h1, h2⟩ := ptrs_split_zoom_down p.reverse root [] [] c l r e hd
  have hz2 : (zoom_down root p.reverse []).1 = ctx := by
    have : zoom root p = zoom_down root p.reverse [] := rfl
    rw [← this, hz]
  simp only [List.reverse_reverse, List.append_nil] at h1
  rw [hz2] at h2
  simp only [frames_before, List.length_nil, Nat.add_zero] at h2
  have hA : (root.ptrs [])[A.length]? = some p := by
    rw [h1, List.getElem?_append_right (Nat.le_refl _)]; simp
  have hlt : i < (root.ptrs []).length := by
    rcases Nat.lt_or_ge i (root.ptrs []).length with h | h
    · exact h
    · rw [List.getElem?_eq_none h] at hp; simp at hp
  have := List.getElem?_inj hlt (ptrs_nodup root []) (hp.trans hA.symm)
  rw [this, h2, List.length_append, length_inorder]

theorem eraseIdx_middle (pre post : List α) (e : α) :
    (pre ++ e :: post).eraseIdx pre.length = pre ++ post := by
  induction pre with
  | nil => rfl
  | cons a as ih => simp [List.eraseIdx, ih]

/-- A successful `erase` leaves the traversal of the tree around the erased
node: what came before it and what came after it. -/
theorem erase_inorder_at (s s1 : set α) (p : List direction_type)
    (h : s.erase (some p) = some s1) :
    ∃ ctx c l e r, zoom s.root_ p = (ctx, .node c l e r) ∧
      s1.root_.inorder = (frames_before ctx ++ l.inorder) ++ (r.inorder ++ frames_after ctx) ∧
      s1.count_ = s.count_ - 1 := by
  simp only [set.erase] at h
  rcases hz : zoom s.root_ p with ⟨ctx, t⟩
  rw [hz] at h
  cases t with
  | null => simp at h
  | node c l e r =>
    simp only at h
    refine ⟨ctx, c, l, e, r, rfl, ?_⟩
    by_cases h2 : (l.is_node && r.is_node) = true
    · rw [if_pos h2] at h
      have hrn : r.is_node = true := by
        simp only [Bool.and_eq_true] at h2; exact h2.2
      obtain ⟨sctx, sc, sl, se, sr, m1, m2, m3, m4⟩ := zoom_min_spec r [] hrn
      rw [m1] at h
      simp only [List.append_nil, Option.some.injEq] at h
      subst h
      refine ⟨?_, rfl⟩
      have hr : r.inorder = se :: sr.inorder ++ frames_after sctx := by
        rw [← m3, inorder_fill, m4]; simp [tree.inorder, inorder_not_node sl m2]
      simp only
      rw [inorder_splice _ sc sl sr e (Or.inl m2), frames_before_append, frames_after_append,
        m4, hr]
      simp [frames_before, frames_after, inorder_not_node sl m2]
    · rw [if_neg h2] at h
      simp only [Option.some.injEq] at h
      subst h
      refine ⟨?_, rfl⟩
      have hlr : l.is_node = false ∨ r.is_node = false := by
        cases hl : l.is_node with
        | false => exact Or.inl rfl
        | true =>
          cases hr : r.is_node with
          | false => exact Or.inr rfl
          | true => simp [hl, hr] at h2
      simp only
      rw [inorder_splice ctx c l r e hlr]
      simp

/-- Erasing the node at in-order index `i` deletes index `i` of the traversal. -/
theorem erase_eraseIdx (s : set α) (p : List direction_type) (i : Nat)
    (hp : (s.root_.ptrs [])[i]? = some p) :
    ∃ s1, s.erase (some p) = some s1 ∧
      s.root_.inorder[i]? = s.root_.elem_at (some p) ∧
      s1.root_.inorder = s.root_.inorder.eraseIdx i ∧ s1.count_ = s.count_ - 1 := by
  have hel : (s.root_.ptrs [])[i]?.map (fun q => s.root_.elem_at (some q))
      = (s.root_.inorder.map some)[i]? := by
    rw [← elem_at_ptrs s.root_ s.root_ [] rfl, List.getElem?_map]
  rw [hp, List.getElem?_map] at hel
  simp only [Option.map_some'] at hel
  cases hi : s.root_.inorder[i]? with
  | none => rw [hi] at hel; simp at hel
  | some e0 =>
    rw [hi] at hel
    simp only [Option.map_some', Option.some.injEq] at hel
    obtain ⟨s1, h1⟩ := erase_valid s (some p) e0 hel
    obtain ⟨ctx, c, l, e, r, hz, k1, k2⟩ := erase_inorder_at s s1 p h1
    have hidx := ptr_index s.root_ p i ctx c l r e hz hp
    have hin : s.root_.inorder
        = (frames_before ctx ++ l.inorder) ++ e :: (r.inorder ++ frames_after ctx) := by
      have := fill_zoom s.root_ p
      rw [hz] at this
      rw [← this, inorder_fill]; simp [tree.inorder]
    refine ⟨s1, h1, hel.symm ▸ rfl, ?_, k2⟩
    rw [k1, hin, hidx, eraseIdx_middle]

/-! ### The hash and the stack adaptor -/

/-- The buffer loop of `FNVHashT` over a whole buffer folds the round over its
octets. -/
theorem fnv_buffer_loop_eq_foldl (w prime : Nat) (data : List octet) (hash : Nat) :
    fnv_buffer_loop w prime data data.length hash
      = some (data.foldl (fnv_round w prime) hash) := by
  induction data generalizing hash with
  | nil => rfl
  | cons p rest ih => simp [fnv_buffer_loop, ih]

theorem fnv_round_eq_reference (w prime hash : Nat) (hw : 8 ≤ w) (p : octet) :
    fnv_round w prime hash p = ((hash * prime) % 2 ^ w) ^^^ p.val := by
  have h1 : (2 : Nat) ^ 8 ≤ 2 ^ w := Nat.pow_le_pow_right (by decide) hw
  have h2 : p.val < 2 ^ w := Nat.lt_of_lt_of_le p.isLt h1
  simp [fnv_round, wrap, Nat.mod_eq_of_lt h2]

theorem equal_elements_refl {T : Type} [BEq T] (hrefl : ∀ a : T, (a == a) = true)
    (xs : List T) : equal_elements xs xs = true := by
  induction xs with
  | nil => rfl
  | cons a as ih => simp [equal_elements, hrefl, ih]

/-- A sequence compares equal to itself exactly when each of its elements
compares equal to itself. -/
theorem equal_elements_self {T : Type} [BEq T] (xs : List T) :
    equal_elements xs xs = true ↔ ∀ a ∈ xs, (a == a) = true := by
  induction xs with
  | nil => simp [equal_elements]
  | cons a as ih => simp [equal_elements, ih]

theorem pop_back_push_back {T : Type} (v : vector T) (x : T) :
    (v.push_back x).pop_back = some v := by
  obtain ⟨xs⟩ := v
  simp only [vector.push_back, vector.pop_back]
  cases h : xs ++ [x] with
  | nil => simp at h
  | cons a as => simp [← h]

/-! ### Lookup and the hash entry points -/

theorem find_loop_eq_find_node (lt : α → α → Bool) (x : α) :
    ∀ (t : tree α) (p : List direction_type) (q : node_ptr) (g : Bool),
    find_loop lt x t p = (find_node_loop lt x t p q g).1.1 := by
  intro t
  induction t with
  | null => intro p q g; rfl
  | node c l e r ihl ihr =>
    intro p q g
    simp only [find_loop, find_node_loop]
    split_ifs
    · exact ihl _ _ _
    · exact ihr _ _ _
    · rfl

/-- The two outcomes of `find(x)` on a set whose traversal is strictly
increasing: a node holding an element equivalent to `x`, or `end()` when the
set holds no such element. -/
theorem find_cases (lt : α → α → Bool) (hswo : strict_weak_order lt) (s : set α) (x : α)
    (hs : sorted lt s.root_.inorder) :
    (∃ p e, s.find lt x = make_iterator (some p) ∧ s.root_.elem_at (some p) = some e ∧
        equiv lt x e ∧ e ∈ s.root_.inorder) ∨
    (s.find lt x = end_ ∧ ¬ ∃ e ∈ s.root_.inorder, equiv lt x e) := by
  have hf : s.find lt x = (find_node lt s x false).1.1 :=
    find_loop_eq_find_node lt x s.root_ [] none false
  rcases hfind : find_node lt s x false with ⟨⟨fp, q⟩, g⟩
  rw [hfind] at hf
  cases fp with
  | some p =>
    left
    obtain ⟨e, h1, h2, h3⟩ :=
      find_node_loop_found lt s.root_ x s.root_ [] none false p q g rfl hfind
    exact ⟨p, e, hf, h1, h2, h3⟩
  | none =>
    right
    refine ⟨hf, ?_⟩
    obtain ⟨ctx, h1, h2, _⟩ := insert_absent lt s x q g hfind
    have h4 : s.root_.inorder = frames_before ctx ++ frames_after ctx := by
      rw [← h2, inorder_fill_null]
    obtain ⟨h5, h6⟩ := path_bounds lt hswo x ctx h1 (by rw [← h4]; exact hs)
    rintro ⟨e, he, he1, he2⟩
    rw [h4, List.mem_append] at he
    rcases he with he | he
    · have := h5 e he; simp [he2] at this
    · have := h6 e he; simp [he1] at this

theorem static_cast_hash_unsigned (w : Nat) (b : octet) :
    static_cast_hash w (octet_value .unsigned_char b) = wrap w b.val := by
  have h : ((b.val : Int) % (2 : Int) ^ w) = ((b.val % 2 ^ w : Nat) : Int) := by
    push_cast; rfl
  simp only [static_cast_hash, octet_value, wrap, h, Int.toNat_ofNat]

/-- Over elements of an unsigned octet type the iterator loop folds the same
round as the buffer loop. -/
theorem fnv_range_loop_unsigned (w prime : Nat) (data : List octet) (hash : Nat) :
    fnv_range_loop w prime .unsigned_char data hash = data.foldl (fnv_round w prime) hash := by
  induction data generalizing hash with
  | nil => rfl
  | cons b rest ih =>
    simp only [fnv_range_loop, List.foldl_cons, ih, static_cast_hash_unsigned, fnv_round]

/-! ### The claims -/

/-- C1 (evaluation at the scenario of the specification).  On the set built by
inserting 1, 3, 5, 7 the key 5 sits at the right child of the root and 7 at
its right child; `lower_bound(5)` returns the position of 7, the successor of
the match, not the position of 5. -/
theorem lower_bound_present_key_returns_successor :
    sample_1357.root_.inorder = [1, 3, 5, 7] ∧
    sample_1357.lower_bound less 5
      = some [right, right] ∧
    sample_1357.root_.elem_at
      (sample_1357.lower_bound less 5) = some 7 ∧
    sample_1357.root_.elem_at (some [right])
      = some 5 := by
  decide

/-- C2 (evaluation at the scenario of the specification).  On the set built by
inserting 1, 3, 5, 7, `upper_bound(5)` returns the position of 5 itself, not
the position of 7. -/
theorem upper_bound_present_key_returns_match :
    sample_1357.upper_bound less 5 = some [right] ∧
    sample_1357.root_.elem_at
      (sample_1357.upper_bound less 5) = some 5 ∧
    sample_1357.root_.elem_at (some [right, right])
      = some 7 := by
  decide

/-- C3 (evaluation at a failing input).  The set built by inserting 3 and then 1
has 3 at the root and 1 as its left child.  The key 2 is absent, and 3 is the
smallest element greater than 2, yet `equal_range(2)` returns `(end(), end())`:
the descent leaves the tree through the right link of 1 and forgets 3. -/
theorem equal_range_absent_key_loses_candidate :
    sample_31.root_
      = .node .black (.node .red .null 1 .null) 3 .null ∧
    sample_31.root_.inorder = [1, 3] ∧
    less 2 3 = true ∧
    sample_31.equal_range less 2 = (end_, end_) := by
  decide

/-- C4.  On a set whose tree is a search tree under a strict weak ordering, for a
key `k` equivalent to an element of the set, `equal_range(k)` is the one-element
range at the match: `first` denotes a node whose element is equivalent to `k`,
and `second` is the pointer that follows it in the in-order list of node
pointers, `end()` when the match is the last one. -/
theorem equal_range_present_key (lt : α → α → Bool) (hswo : strict_weak_order lt)
    (s : set α) (k : α) (hbst : s.root_.bst lt) (hk : ∃ e ∈ s.root_.inorder, equiv lt k e) :
    ∃ (q : List direction_type) (e : α) (pre post : List (List direction_type)),
      (s.equal_range lt k).1 = make_iterator (some q) ∧
      s.root_.elem_at (some q) = some e ∧ equiv lt k e ∧
      s.root_.ptrs [] = pre ++ q :: post ∧
      (s.equal_range lt k).2 = (match post with
        | [] => end_
        | q1 :: _ => make_iterator (some q1)) := by
  obtain ⟨q, e, h1, h2, h3, h4⟩ :=
    equal_range_loop_present lt hswo s.root_ k s.root_ [] rfl hbst hk
  obtain ⟨pre, post, h5⟩ := List.append_of_mem h4
  refine ⟨q, e, pre, post, ?_, h2, h3, h5, ?_⟩
  · simp [set.equal_range, h1, make_iterator]
  · simp only [set.equal_range, h1, next_eq_head_of_split s.root_ pre post q h5]
    cases post <;> rfl

/-- C4, at the scenario of the specification: on the set holding 1, 3, 5, 7,
`equal_range(5)` is the pair of the position of 5 and the position of 7. -/
theorem equal_range_present_key_witness :
    sample_1357.equal_range less 5 = (some [right], some [right, right]) ∧
    sample_1357.root_.elem_at (some [right]) = some 5 ∧
    sample_1357.root_.elem_at (some [right, right]) = some 7 ∧
    ∃ (q : List direction_type) (e : Nat) (pre post : List (List direction_type)),
      (sample_1357.equal_range less 5).1 = make_iterator (some q) ∧
      sample_1357.root_.elem_at (some q) = some e ∧ equiv less 5 e ∧
      sample_1357.root_.ptrs [] = pre ++ q :: post ∧
      (sample_1357.equal_range less 5).2 = (match post with
        | [] => end_
        | q1 :: _ => make_iterator (some q1)) :=
  ⟨by decide, by decide, by decide,
    equal_range_present_key less less_nat_strict_weak_order sample_1357 5 (by decide)
      ⟨5, by decide, by decide⟩⟩

/-- C5.  When the tree search of `insert(x)` finds a node, `insert(x)` returns the
iterator to that node and `false`; the node holds an element equivalent to
`x`, and the set is left as it was. -/
theorem insert_found_returns_existing (lt : α → α → Bool) (s : set α) (x : α)
    (p : List direction_type) (q : node_ptr) (g : Bool)
    (hfind : find_node lt s x false = ((some p, q), g)) :
    (s.insert lt x).1 = (make_iterator (some p), false) ∧
    (∃ e, s.root_.elem_at (some p) = some e ∧ equiv lt x e) ∧
    (s.insert lt x).2 = s := by
  refine ⟨?_, ?_, ?_⟩
  · simp [set.insert, hfind]
  · obtain ⟨e, h1, h2, _⟩ :=
      find_node_loop_found lt s.root_ x s.root_ [] none false p q g rfl hfind
    exact ⟨e, h1, h2⟩
  · simp [set.insert, hfind]

/-- C5, on the set holding 1, 3, 5, 7: the search for 5 finds the right child
of the root, and `insert(5)` returns it with `false`. -/
theorem insert_found_returns_existing_witness :
    find_node less sample_1357 5 false = ((some [right], some []), true) ∧
    (sample_1357.insert less 5).1 = (make_iterator (some [right]), false) ∧
    (∃ e, sample_1357.root_.elem_at (some [right]) = some e ∧ equiv less 5 e) ∧
    (sample_1357.insert less 5).2 = sample_1357 :=
  ⟨by decide,
    insert_found_returns_existing less sample_1357 5 [right] (some []) true (by decide)⟩

/-- C6.  On a set whose tree is a search tree under a strict weak ordering (as
every set reached from the empty set is, `reachable_bst`), `insert(x)` of a
value that already has an equivalent element constructs no node: the number of
nodes constructed is the same after the call as before it.  It reports `false`
and leaves the set as it was: the same `size()`, the same root, and at every
position the same node with the same element, colour and links. -/
theorem insert_existing_leaves_set_unchanged (lt : α → α → Bool)
    (hswo : strict_weak_order lt) (s : set α) (x : α) (constructed : Nat)
    (hbst : s.root_.bst lt) (hx : ∃ e ∈ s.root_.inorder, equiv lt x e) :
    (s.insert_counted lt x constructed).2 = constructed ∧
    (s.insert_counted lt x constructed).1 = s.insert lt x ∧
    (s.insert lt x).2 = s ∧ (s.insert lt x).2.root_ = s.root_ ∧
    (∀ p, (s.insert lt x).2.root_.at_ptr p = s.root_.at_ptr p) ∧
    (s.insert lt x).2.size = s.size ∧ (s.insert lt x).1.2 = false := by
  rcases insert_cases lt hswo s x ((bst_iff_sorted lt hswo _).mp hbst) with
    ⟨p, e, h1, _, _, _, h5⟩ | ⟨h1, _⟩
  · refine ⟨?_, insert_counted_fst lt s x constructed, h5, by rw [h5], ?_, by rw [h5],
      by rw [h1]⟩
    · rw [insert_counted_snd, h1]; simp
    · intro q; rw [h5]
  · exact absurd hx h1

/-- C6, on the set holding 1, 3, 5, 7 and the value 5, with 4 nodes constructed
before the call; `insert(6)` on the same set constructs a fifth. -/
theorem insert_existing_leaves_set_unchanged_witness :
    (sample_1357.insert_counted less 6 4).2 = 5 ∧
    (sample_1357.insert_counted less 5 4).2 = 4 ∧
    (sample_1357.insert_counted less 5 4).1 = sample_1357.insert less 5 ∧
    (sample_1357.insert less 5).2 = sample_1357 ∧
    (sample_1357.insert less 5).2.root_ = sample_1357.root_ ∧
    (∀ p, (sample_1357.insert less 5).2.root_.at_ptr p = sample_1357.root_.at_ptr p) ∧
    (sample_1357.insert less 5).2.size = sample_1357.size ∧
    (sample_1357.insert less 5).1.2 = false :=
  ⟨by decide,
    insert_existing_leaves_set_unchanged less less_nat_strict_weak_order sample_1357 5 4
      (by decide) ⟨5, by decide, by decide⟩⟩

/-- C7.  On a set whose tree is a search tree under a strict weak ordering (as
every set reached from the empty set is, `reachable_bst`), the `bool` returned by `insert(x)` is `true` exactly when no element equivalent to
`x` was in the set; in that case the returned iterator denotes a node of the
new tree whose element is `x`, and the traversal of the new tree is the old
one with `x` put in at one place. -/
theorem insert_reports_new_element (lt : α → α → Bool) (hswo : strict_weak_order lt)
    (s : set α) (x : α) (hbst : s.root_.bst lt) :
    ((s.insert lt x).1.2 = true ↔ ¬ ∃ e ∈ s.root_.inorder, equiv lt x e) ∧
    ((s.insert lt x).1.2 = true →
      (s.insert lt x).2.root_.elem_at (s.insert lt x).1.1 = some x ∧
      ∃ pre post, s.root_.inorder = pre ++ post ∧
        (s.insert lt x).2.root_.inorder = pre ++ x :: post) := by
  rcases insert_cases lt hswo s x ((bst_iff_sorted lt hswo _).mp hbst) with
    ⟨p, e, h1, _, h3, h4, _⟩ | ⟨h1, ctx, h2, _, _, h5⟩
  · refine ⟨?_, ?_⟩
    · rw [h1]
      simp only [Bool.false_eq_true, false_iff, not_not]
      exact ⟨e, h4, h3⟩
    · rw [h1]; simp
  · refine ⟨?_, ?_⟩
    · rw [h5]; simpa using h1
    · intro _
      rw [h5]
      refine ⟨elem_at_insert_new ctx x, frames_before ctx, frames_after ctx, ?_, ?_⟩
      · rw [← h2, inorder_fill_null]
      · exact inorder_insert_new ctx x

/-- C7, on the set holding 1, 3, 5, 7 and the new value 6. -/
theorem insert_reports_new_element_witness :
    ((sample_1357.insert less 6).1.2 = true ↔
      ¬ ∃ e ∈ sample_1357.root_.inorder, equiv less 6 e) ∧
    ((sample_1357.insert less 6).1.2 = true →
      (sample_1357.insert less 6).2.root_.elem_at (sample_1357.insert less 6).1.1 = some 6 ∧
      ∃ pre post, sample_1357.root_.inorder = pre ++ post ∧
        (sample_1357.insert less 6).2.root_.inorder = pre ++ 6 :: post) :=
  insert_reports_new_element less less_nat_strict_weak_order sample_1357 6 (by decide)

/-- C8.  Inserting the keys of a list one by one into an empty set, under a strict
weak ordering, and iterating from `begin()` to `end()` with more fuel than the
list is long yields a strictly increasing list; each of its elements is a key
of the list and each key of the list has an equivalent element in it.
Inserting 5, 3, 8, 1, 4, 7, 9 yields 1, 3, 4, 5, 7, 8, 9, after which `find(4)`
succeeds and `find(6)` fails. -/
theorem insert_each_traverses_sorted (lt : α → α → Bool) (hswo : strict_weak_order lt)
    (xs : List α) (fuel : Nat) (hfuel : xs.length < fuel) :
    (∃ out, (insert_each lt set.empty xs).traverse fuel = some out ∧ sorted lt out ∧
      out.Nodup ∧ (∀ y ∈ out, y ∈ xs) ∧ (∀ x ∈ xs, ∃ y ∈ out, equiv lt x y)) ∧
    (insert_each less (set.empty : set Nat) [5, 3, 8, 1, 4, 7, 9]).traverse 8
      = some [1, 3, 4, 5, 7, 8, 9] ∧
    (insert_each less (set.empty : set Nat) [5, 3, 8, 1, 4, 7, 9]).find less 4 ≠ end_ ∧
    (insert_each less (set.empty : set Nat) [5, 3, 8, 1, 4, 7, 9]).find less 6 = end_ := by
  refine ⟨?_, by decide, by decide, by decide⟩
  obtain ⟨h1, h2, h3, h4⟩ := insert_each_spec lt hswo xs set.empty
    (by simp [set.empty, tree.inorder, sorted])
  refine ⟨_, traverse_eq_inorder _ fuel ?_, h1, ?_, ?_, ?_⟩
  · have h0 : (set.empty : set α).root_.size = 0 := rfl
    rw [h0] at h4; omega
  · refine List.Pairwise.imp ?_ h1
    intro a b hab heq
    subst heq
    simp [hswo.irrefl a] at hab
  · intro y hy
    rcases h2 y hy with h | h
    · simp [set.empty, tree.inorder] at h
    · exact h
  · intro x hx
    exact h3 x (Or.inl hx)

/-- C8, at the scenario of the specification. -/
theorem insert_each_traverses_sorted_witness :
    (∃ out, (insert_each less (set.empty : set Nat) [5, 3, 8, 1, 4, 7, 9]).traverse 8 = some out ∧
      sorted less out ∧ out.Nodup ∧ (∀ y ∈ out, y ∈ [5, 3, 8, 1, 4, 7, 9]) ∧
      (∀ x ∈ [5, 3, 8, 1, 4, 7, 9], ∃ y ∈ out, equiv less x y)) ∧
    (insert_each less (set.empty : set Nat) [5, 3, 8, 1, 4, 7, 9]).traverse 8
      = some [1, 3, 4, 5, 7, 8, 9] ∧
    (insert_each less (set.empty : set Nat) [5, 3, 8, 1, 4, 7, 9]).find less 4 ≠ end_ ∧
    (insert_each less (set.empty : set Nat) [5, 3, 8, 1, 4, 7, 9]).find less 6 = end_ :=
  insert_each_traverses_sorted less less_nat_strict_weak_order [5, 3, 8, 1, 4, 7, 9] 8
    (by decide)

/-- C9.  Every set reached from the empty set by a sequence of `insert` and
`erase` operations satisfies the red-black colouring invariants: the root is
black, no red node has a red child, and every path from the root to an
absent-child marker passes through the same number of black nodes.  So does
the set after one more `insert`, and after one more `erase`, which succeeds
through every iterator that denotes a node. -/
theorem red_black_after_insert_and_erase (lt : α → α → Bool) (s : set α)
    (hs : reachable lt s) :
    red_black s.root_ ∧
    (∀ x, red_black (s.insert lt x).2.root_) ∧
    (∀ position e, s.root_.elem_at position = some e →
      ∃ s1, s.erase position = some s1 ∧ red_black s1.root_) := by
  have key : ∀ t, reachable lt t → red_black t.root_ := by
    intro t ht
    obtain ⟨h1, h2, h3, _⟩ := reachable_inv lt t ht
    exact red_black_of_inv _ h1 h2 h3
  refine ⟨key s hs, fun x => key _ (reachable.insert s x hs), ?_⟩
  intro position e he
  obtain ⟨s1, h1⟩ := erase_valid s position e he
  exact ⟨s1, h1, key s1 (reachable.erase s s1 position hs h1)⟩

/-- C9, at the set left by inserting 10, 20, 30 and erasing 20. -/
theorem red_black_after_insert_and_erase_witness :
    sample_102030.erase (some [])
      = some (set.mk (.node .black (.node .red .null 10 .null) 30 .null) 2) ∧
    red_black (set.mk (.node .black (.node .red .null 10 .null) 30 .null) 2).root_ ∧
    (∀ x, red_black
      ((set.mk (.node .black (.node .red .null 10 .null) 30 .null) 2).insert less x).2.root_) ∧
    (∀ position e,
      (set.mk (.node .black (.node .red .null 10 .null) 30 .null) 2).root_.elem_at position
        = some e →
      ∃ s1, (set.mk (.node .black (.node .red .null 10 .null) 30 .null) 2).erase position
        = some s1 ∧ red_black s1.root_) :=
  ⟨by decide,
    red_black_after_insert_and_erase less _
      (reachable.erase sample_102030 _ (some [])
        (reachable_insert_each less [10, 20, 30] set.empty reachable.empty) (by decide))⟩

/-- C10.  For every set reached from the empty set by a sequence of `insert` and
`erase` operations, iterating from `begin()` to `end()` with more fuel than
`size()` reaches exactly `size()` elements. -/
theorem size_counts_traversal (lt : α → α → Bool) (s : set α) (hs : reachable lt s)
    (fuel : Nat) (hfuel : s.size < fuel) :
    ∃ out, s.traverse fuel = some out ∧ out.length = s.size := by
  obtain ⟨_, _, _, h4⟩ := reachable_inv lt s hs
  refine ⟨s.root_.inorder, traverse_eq_inorder s fuel ?_, ?_⟩
  · rw [← h4]; exact hfuel
  · rw [length_inorder, set.size, h4]

/-- C10, at the set left by inserting 10, 20, 30 and erasing 20. -/
theorem size_counts_traversal_witness :
    (set.mk (.node .black (.node .red .null 10 .null) 30 .null) 2 : set Nat).size = 2 ∧
    ∃ out, (set.mk (.node .black (.node .red .null 10 .null) 30 .null) 2 : set Nat).traverse 3
      = some out ∧
      out.length = (set.mk (.node .black (.node .red .null 10 .null) 30 .null) 2 : set Nat).size :=
  ⟨rfl,
    size_counts_traversal less _
      (reachable.erase sample_102030 _ (some [])
        (reachable_insert_each less [10, 20, 30] set.empty reachable.empty) (by decide))
      3 (by decide)⟩

/-- C11.  For every set reached from the empty set by `insert` and `erase`, and
every position `p` in it, the one of the node at in-order index `i`: `erase(p)`
succeeds, the traversal afterwards is the previous traversal with index `i`,
the element at `p`, deleted, and `size()` is one less.  Inserting 10, 20, 30
and erasing 20 leaves the traversal 10, 30 with `size()` 2. -/
theorem erase_removes_element_at_position (lt : α → α → Bool) (s : set α)
    (hs : reachable lt s) (p : List direction_type) (i : Nat)
    (hp : (s.root_.ptrs [])[i]? = some p) (fuel : Nat) (hfuel : s.size < fuel) :
    (∃ s1 out, s.erase (make_iterator (some p)) = some s1 ∧
      s.traverse fuel = some out ∧ out[i]? = s.root_.elem_at (some p) ∧
      s1.traverse fuel = some (out.eraseIdx i) ∧ s1.size + 1 = s.size) ∧
    (sample_102030.erase (sample_102030.find less 20)).map
      (fun s1 => (s1.traverse 3, s1.size)) = some (some [10, 30], 2) := by
  refine ⟨?_, by decide⟩
  obtain ⟨s1, h1, h2, h3, h4⟩ := erase_eraseIdx s p i hp
  obtain ⟨_, _, _, hc⟩ := reachable_inv lt s hs
  obtain ⟨_, _, _, hc1⟩ := reachable_inv lt s1 (reachable.erase s s1 (some p) hs h1)
  have hlen : i < s.root_.size := by
    rw [← length_ptrs s.root_ []]
    rcases Nat.lt_or_ge i (s.root_.ptrs []).length with h | h
    · exact h
    · rw [List.getElem?_eq_none h] at hp; simp at hp
  simp only [set.size] at hfuel ⊢
  refine ⟨s1, s.root_.inorder, h1, traverse_eq_inorder s fuel (by omega), h2, ?_, by omega⟩
  rw [← h3]
  exact traverse_eq_inorder s1 fuel (by omega)

/-- C11, at the set holding 10, 20, 30 and the position of 20, its root. -/
theorem erase_removes_element_at_position_witness :
    (∃ s1 out, sample_102030.erase (make_iterator (some [])) = some s1 ∧
      sample_102030.traverse 4 = some out ∧ out[1]? = sample_102030.root_.elem_at (some []) ∧
      s1.traverse 4 = some (out.eraseIdx 1) ∧ s1.size + 1 = sample_102030.size) ∧
    (sample_102030.erase (sample_102030.find less 20)).map
      (fun s1 => (s1.traverse 3, s1.size)) = some (some [10, 30], 2) :=
  erase_removes_element_at_position less sample_102030
    (reachable_insert_each less [10, 20, 30] set.empty reachable.empty) [] 1 (by decide) 4
    (by decide)

/-- C12.  For `hash_t` an unsigned integer of `w` bits (at least the eight bits
of an octet) and every byte sequence, `FNVHashT::operator()(data, size)` over
the whole sequence returns the FNV-1 reference hash; the empty sequence hashes
to the seed; with the 32-bit parameters of `FNVHash` the single byte 0x61
hashes to 0x050c5d7e. -/
theorem fnv_hash_is_fnv1 (w prime seed : Nat) (hw : 8 ≤ w) (data : List octet) :
    FNVHashT.call w prime seed data data.length = some (fnv1_reference w prime seed data) ∧
    FNVHashT.call w prime seed [] 0 = some seed ∧
    FNVHash.call [0x61] 1 = some 0x050c5d7e := by
  refine ⟨?_, rfl, by decide⟩
  rw [FNVHashT.call, fnv_buffer_loop_eq_foldl, fnv1_reference]
  congr 2
  funext h b
  exact fnv_round_eq_reference w prime h hw b

/-- C12, at the 32-bit parameters of `FNVHash` and the bytes of "ab". -/
theorem fnv_hash_is_fnv1_witness :
    FNVHashT.call 32 0x01000193 2166136261 [0x61, 0x62] 2
      = some (fnv1_reference 32 0x01000193 2166136261 [0x61, 0x62]) ∧
    FNVHashT.call 32 0x01000193 2166136261 [] 0 = some 2166136261 ∧
    FNVHash.call [0x61] 1 = some 0x050c5d7e :=
  fnv_hash_is_fnv1 32 0x01000193 2166136261 (by decide) [0x61, 0x62]

/-- C13.  The negators return the complement of their predicate:
`not1(p)(x)` is `!p(x)` and `not2(q)(x, y)` is `!q(x, y)`. -/
theorem negators_complement {A B : Type} (p : A → Bool) (q : A → B → Bool) (x : A) (y : B) :
    (not1 p).call x = ! p x ∧ (not2 q).call x y = ! q x y :=
  ⟨rfl, rfl⟩

/-- C14.  `bind1st(op, v)(x)` returns `op(v, x)`: the bound value, converted to
the first argument type as the call `op(v, x)` converts it, is passed first and
the call argument second. -/
theorem bind1st_binds_first {T A B R : Type} (op : A → B → R) (convert : T → A) (v : T)
    (w : A) (x : B) :
    (bind1st op convert v).call x = op (convert v) x ∧
    (bind1st op (fun a => a) w).call x = op w x :=
  ⟨rfl, rfl⟩

/-- C15.  `bind2nd(op, v)(x)` returns `op(x, v)`, the bound value being converted
to the second argument type, and the call operator for a const reference and
the one for a non-const reference return the same result. -/
theorem bind2nd_binds_second {T A B R : Type} (op : A → B → R) (convert : T → B) (v : T)
    (w : B) (x : A) :
    (bind2nd op convert v).call x = op x (convert v) ∧
    (bind2nd op (fun b => b) w).call x = op x w ∧
    (bind2nd op convert v).call_ref x = (bind2nd op convert v).call x :=
  ⟨rfl, rfl, rfl⟩

/-- C16.  The comparison functors return the result of the corresponding
comparison operator of `T`. -/
theorem comparison_functors {T : Type} [BEq T] [LT T] [LE T]
    [DecidableRel (fun (a b : T) => a < b)] [DecidableRel (fun (a b : T) => a ≤ b)]
    (x y : T) :
    equal_to x y = (x == y) ∧ not_equal_to x y = (x != y) ∧
    (greater x y = true ↔ x > y) ∧ (less x y = true ↔ x < y) ∧
    (greater_equal x y = true ↔ x ≥ y) ∧ (less_equal x y = true ↔ x ≤ y) := by
  refine ⟨rfl, rfl, ?_, ?_, ?_, ?_⟩ <;> simp [greater, less, greater_equal, less_equal]

/-- C17.  After `s.push(x)`, `s.top()` returns `x`; after a further `push(y)` and
`pop()`, `top()` returns `x` again. -/
theorem top_after_push {T : Type} (s : stack T) (x y : T) :
    (s.push x).top = some x ∧
    ∃ s1, ((s.push x).push y).pop = some s1 ∧ s1.top = some x := by
  refine ⟨by simp [stack.push, stack.top, vector.push_back, vector.back], s.push x, ?_, ?_⟩
  · simp [stack.push, stack.pop, pop_back_push_back]
  · simp [stack.push, stack.top, vector.push_back, vector.back]

/-- C18 (amended).  For every stack `s` and value `x`, `s.push(x)` followed by
`s.pop()` gives a stack of the same size holding the same elements in the same
order as before the push.  `operator==` between it and the stack before the
push returns `true` exactly when every element of the stack compares equal to
itself under the `==` of `T`; so it does whenever that `==` holds between every
value and itself. -/
theorem pop_after_push {T : Type} [BEq T] (s : stack T) (x : T) :
    ∃ s1, (s.push x).pop = some s1 ∧ s1.size = s.size ∧ s1.c.data = s.c.data ∧
      (stack.equal s1 s = true ↔ ∀ a ∈ s.c.data, (a == a) = true) ∧
      ((∀ a : T, (a == a) = true) → stack.equal s1 s = true) := by
  have h : stack.equal s s = true ↔ ∀ a ∈ s.c.data, (a == a) = true := by
    simp [stack.equal, vector.equal, equal_elements_self]
  exact ⟨s, by simp [stack.push, stack.pop, pop_back_push_back], rfl, rfl, h,
    fun hrefl => h.mpr (fun a _ => hrefl a)⟩

/-- C18 (amended), on the stack holding 1, 2 and the value 3. -/
theorem pop_after_push_witness :
    ∃ s1, ((stack.mk (vector.mk [1, 2]) : stack Nat).push 3).pop = some s1 ∧
      stack.equal s1 (stack.mk (vector.mk [1, 2])) = true ∧
      s1.size = (stack.mk (vector.mk [1, 2]) : stack Nat).size ∧
      s1.c.data = (stack.mk (vector.mk [1, 2]) : stack Nat).c.data :=
  let ⟨s1, h1, h2, h3, _, h5⟩ := pop_after_push (stack.mk (vector.mk [1, 2])) 3
  ⟨s1, h1, h5 (fun a => by simp), h2, h3⟩

/-- C18 (counterexample to the claim as written).  On the stack of `double`
holding a NaN, `push(1)` followed by `pop()` gives back a stack of size 1
holding that NaN, and `operator==` between it and the stack before the push
returns `false`. -/
theorem pop_after_push_nan_compares_unequal :
    ∃ s1, ((stack.mk (vector.mk [double.nan])).push (double.finite 1)).pop = some s1 ∧
      s1.size = 1 ∧ s1.c.data = [double.nan] ∧
      stack.equal s1 (stack.mk (vector.mk [double.nan])) = false :=
  ⟨stack.mk (vector.mk [double.nan]), rfl, rfl, rfl, rfl⟩

/-- C19.  `size()` and `empty()` of a stack are those of the underlying
container; `empty()` holds exactly when `size()` is 0; `push` increases
`size()` by one; `pop` on a non-empty stack succeeds and decreases `size()` by
one. -/
theorem stack_size_and_empty {T : Type} (s : stack T) (x : T) :
    s.size = s.c.size ∧ s.empty = s.c.empty ∧
    (s.empty = true ↔ s.size = 0) ∧
    (s.push x).size = s.size + 1 ∧
    (s.empty = false → ∃ s1, s.pop = some s1 ∧ s1.size + 1 = s.size) := by
  obtain ⟨⟨xs⟩⟩ := s
  refine ⟨rfl, rfl, ?_, ?_, ?_⟩
  · cases xs <;> simp [stack.empty, stack.size, vector.empty, vector.size]
  · simp [stack.push, stack.size, vector.push_back, vector.size]
  · intro h
    cases xs with
    | nil => simp [stack.empty, vector.empty] at h
    | cons a as =>
      refine ⟨_, rfl, ?_⟩
      simp [stack.size, vector.size]

/-- C20 (evaluation for every amount of fuel).  The const overload of
`equal_range` calls itself and nothing else: on every set and key it does not
return, whatever the fuel, while the non-const overload returns a pair. -/
theorem equal_range_const_never_returns (lt : α → α → Bool) (s : set α) (k : α) (fuel : Nat) :
    s.equal_range_const k fuel = none ∧
    ∃ r, s.equal_range lt k = r := by
  refine ⟨?_, _, rfl⟩
  induction fuel with
  | zero => rfl
  | succ n ih => simpa [set.equal_range_const] using ih

/-- C21.  On a set whose tree is a search tree under a strict weak ordering (as
every set reached from the empty set is, `reachable_bst`), `count(x)` is 0 or
1; it is 1 exactly when `find(x)` is not `end()`, and exactly when an element
equivalent to `x` is in the set. -/
theorem count_is_membership (lt : α → α → Bool) (hswo : strict_weak_order lt) (s : set α)
    (x : α) (hbst : s.root_.bst lt) :
    (s.count lt x = 0 ∨ s.count lt x = 1) ∧
    (s.count lt x = 1 ↔ s.find lt x ≠ end_) ∧
    (s.count lt x = 1 ↔ ∃ e ∈ s.root_.inorder, equiv lt x e) := by
  have hc : s.count lt x = 1 ↔ s.find lt x ≠ end_ := by
    simp only [set.count]
    split_ifs with h
    · simp [h]
    · simp [h]
  refine ⟨?_, hc, ?_⟩
  · simp only [set.count]
    split_ifs
    · exact Or.inr rfl
    · exact Or.inl rfl
  · rw [hc]
    rcases find_cases lt hswo s x ((bst_iff_sorted lt hswo _).mp hbst) with
      ⟨p, e, h1, _, h3, h4⟩ | ⟨h1, h2⟩
    · rw [h1]
      simp only [make_iterator, end_, ne_eq, reduceCtorEq, not_false_eq_true, true_iff]
      exact ⟨e, h4, h3⟩
    · rw [h1]
      simp only [ne_eq, not_true_eq_false, false_iff]
      exact h2

/-- C21, on the set holding 1, 3, 5, 7: `count(5)` is 1 and `count(6)` is 0. -/
theorem count_is_membership_witness :
    sample_1357.count less 5 = 1 ∧ sample_1357.count less 6 = 0 ∧
    (sample_1357.count less 5 = 0 ∨ sample_1357.count less 5 = 1) ∧
    (sample_1357.count less 5 = 1 ↔ sample_1357.find less 5 ≠ end_) ∧
    (sample_1357.count less 5 = 1 ↔ ∃ e ∈ sample_1357.root_.inorder, equiv less 5 e) :=
  ⟨by decide, by decide,
    count_is_membership less less_nat_strict_weak_order sample_1357 5 (by decide)⟩

/-- C22.  The hinted `insert(pos, x)` returns the iterator of `insert(x)` and
leaves the set in the state `insert(x)` leaves it in, whatever the position:
two hints give the same result. -/
theorem insert_hint_ignores_position (lt : α → α → Bool) (s : set α) (x : α)
    (position position1 : iterator) :
    (s.insert_hint lt position x).1 = (s.insert lt x).1.1 ∧
    (s.insert_hint lt position x).2 = (s.insert lt x).2 ∧
    s.insert_hint lt position x = s.insert_hint lt position1 x :=
  ⟨rfl, rfl, rfl⟩

/-- C23 (evaluation at a failing input).  Copy-assigning a set to itself clears
it first, so whatever `assign` does it is given the cleared set twice and the
outcome does not depend on what the set held.  The set holding 1, 3, 5, 7
with `size()` 4 is empty with `size()` 0 after `s = s`, while assigning it to
another set does copy its elements. -/
theorem self_assignment_empties_set :
    (∀ (assign_ : set Nat → set Nat → set Nat) (s : set Nat),
      set.copy_assign_with assign_ s .self = assign_ set.empty set.empty) ∧
    sample_1357.root_.inorder = [1, 3, 5, 7] ∧ sample_1357.size = 4 ∧
    set.copy_assign less sample_1357 .self = set.empty ∧
    (set.copy_assign less sample_1357 .self).root_.inorder = [] ∧
    (set.copy_assign less sample_1357 .self).size = 0 ∧
    (set.copy_assign less sample_31 (.other sample_1357)).root_.inorder = [1, 3, 5, 7] :=
  ⟨fun _ _ => rfl, by decide, by decide, by decide, by decide, by decide, by decide⟩

/-- C24 (evaluation at a failing input).  For every byte sequence `hash_op` with the
seed as initial hash and the octet-iterator overload over an unsigned octet
type return what `operator()(data, size)` returns.  Over a signed octet type
the iterator overload converts the negative value of a byte from 0x80 on to
`hash_t` with its sign: with the 32-bit parameters of `FNVHash` the single
byte 0x80 hashes to 0x050c5d9f through the buffer and to 0xfaf3a29f through the
iterators. -/
theorem fnv_entry_points (w prime seed : Nat) (data : List octet) :
    FNVHashT.hash_op w prime data data.length seed
      = FNVHashT.call w prime seed data data.length ∧
    some (FNVHashT.call_range w prime seed .unsigned_char data)
      = FNVHashT.call w prime seed data data.length ∧
    FNVHashT.call 32 0x01000193 2166136261 [0x80] 1 = some 0x050c5d9f ∧
    FNVHashT.hash_op 32 0x01000193 [0x80] 1 2166136261 = some 0x050c5d9f ∧
    FNVHashT.call_range 32 0x01000193 2166136261 .signed_char [0x80] = 0xfaf3a29f := by
  refine ⟨rfl, ?_, by decide, by decide, by decide⟩
  rw [FNVHashT.call, fnv_buffer_loop_eq_foldl, FNVHashT.call_range, fnv_range_loop_unsigned]

end theorems

end Ontl
